import Mathlib

/-!
Verification of the obelus telephony protocol library core against its
specification.  The Python source is shallowly embedded: byte strings are
`List Nat` (one `Nat` per byte), text strings are Lean `String`s, stateful
classes become explicit state records with transition functions, and
fallible code returns `Except`/`Option`.
-/

set_option maxRecDepth 4000

namespace Obelus

/-- Byte values for carriage return and line feed. -/
def CR : Nat := 13

def LF : Nat := 10

/-- `data.endswith((b'\r', b'\n'))` on a byte string. -/
def endsTerm (l : List Nat) : Bool :=
  l.getLast? = some LF ∨ l.getLast? = some CR

/-- Whether a byte string ends with a carriage return. -/
def endsCR (l : List Nat) : Bool :=
  l.getLast? = some CR

/-- Python `bytes.splitlines(keepends=True)`: split on `\n`, `\r\n` and
bare `\r`, keeping the terminators; a trailing unterminated part is kept. -/
def pySplitlinesKeep : List Nat → List (List Nat)
  | [] => []
  | 10 :: rest => [10] :: pySplitlinesKeep rest
  | 13 :: 10 :: rest => [13, 10] :: pySplitlinesKeep rest
  | 13 :: rest => [13] :: pySplitlinesKeep rest
  | b :: rest =>
    match pySplitlinesKeep rest with
    | [] => [[b]]
    | p :: ps => (b :: p) :: ps

/-- State of `LineReceiver` (`src/obelus/common.py`): the list of buffered
partial-line chunks (`_chunks`) and the pending-`\n`-swallow flag
(`_eat_lf`).  The lazy `_chunks is None` initialisation is equivalent to
starting from `⟨[], false⟩`. -/
structure LRState where
  buffer : List (List Nat)
  eatLF : Bool
  deriving Repr, DecidableEq

def LRState.init : LRState := ⟨[], false⟩

/-- `LineReceiver.data_received`: returns the new state and the lines
passed to `line_received`, in order. -/
def dataReceived (st : LRState) (data : List Nat) : LRState × List (List Nat) :=
  -- rebind `data` as in the buffer-empty branch of the source
  let data' := if st.buffer = [] ∧ st.eatLF ∧ data.head? = some LF
               then data.tail else data
  -- `_eat_lf` is cleared in the buffer-empty branch only
  let eat0 := if st.buffer = [] then false else st.eatLF
  let chunks := st.buffer.dropLast
  let parts := pySplitlinesKeep (st.buffer.getLastD [] ++ data')
  if parts.length ≤ 1 ∧ ¬ endsTerm data' then
    -- no new line, just buffer the received data
    ({ buffer := st.buffer ++ [data'], eatLF := eat0 }, [])
  else
    match parts with
    | [] => ({ buffer := [], eatLF := eat0 }, [])  -- unreachable under the guard
    | first :: rest =>
      -- first part is the tail of a buffered line
      let line := chunks.flatten ++ first
      if rest = [] then
        ({ buffer := [], eatLF := eat0 || endsCR line }, [line])
      else
        let mids := rest.dropLast
        let lastPart := rest.getLastD []
        if endsTerm lastPart then
          ({ buffer := [], eatLF := eat0 || endsCR lastPart },
           line :: (mids ++ [lastPart]))
        else
          ({ buffer := [lastPart], eatLF := eat0 }, line :: mids)

/-- Feed a sequence of chunks to a `LineReceiver`, collecting all emitted
lines. -/
def feedAll (st : LRState) : List (List Nat) → LRState × List (List Nat)
  | [] => (st, [])
  | c :: cs =>
    let r := dataReceived st c
    let r' := feedAll r.1 cs
    (r'.1, r.2 ++ r'.2)

/-! ### `Handler` (completion token), `src/obelus/common.py` -/

/-- Result or exception delivered through a completion token. -/
inductive Outcome (α ε : Type) where
  | ok (a : α)
  | exc (e : ε)
  deriving Repr, DecidableEq

def Outcome.isOk {α ε : Type} : Outcome α ε → Bool
  | .ok _ => true
  | .exc _ => false

/-- `result=` value of an outcome (`some` for success, `none` otherwise). -/
def Outcome.val? {α ε : Type} : Outcome α ε → Option α
  | .ok a => some a
  | .exc _ => none

/-- State of a `Handler`: whether `_result_cb` / `_exception_cb` are bound
(the callables themselves are abstracted to their presence) and the
`_triggered` flag. -/
structure PyHandler where
  resultCb : Bool
  excCb : Bool
  triggered : Bool
  deriving Repr, DecidableEq

/-- Observable effect of delivering to a handler. -/
inductive DeliverEffect (α ε : Type) where
  | none
  | callback (o : Outcome α ε)
  | raised (e : ε)
  | runtimeError
  | typeError
  deriving Repr, DecidableEq

/-- `Handler.set_result`. -/
def setResult {α ε : Type} (h : PyHandler) (v : α) :
    PyHandler × DeliverEffect α ε :=
  if h.triggered then (h, .runtimeError)
  else ({ h with triggered := true },
        if h.resultCb then .callback (.ok v) else .none)

/-- `Handler.set_exception`: raises the exception to the caller when no
exception callback is bound. -/
def setException {α ε : Type} (h : PyHandler) (e : ε) :
    PyHandler × DeliverEffect α ε :=
  if h.triggered then (h, .runtimeError)
  else ({ h with triggered := true },
        if h.excCb then .callback (.exc e) else .raised e)

/-- The code of `AsyncAGIExecutor._send_command_line`'s `_on_action_failure`
is `handler.on_exception(exc)`: it reads the `on_exception` property (the
bound callback, or `None`) and calls it with the exception.  The handler's
state is not touched; calling `None` raises a `TypeError`. -/
def onExceptionCall {α ε : Type} (h : PyHandler) (e : ε) :
    PyHandler × DeliverEffect α ε :=
  (h, if h.excCb then .callback (.exc e) else .typeError)

/-- The public operations defined by the `Handler` class
(`src/obelus/common.py`, lines 6–94): the two callback properties (with
setters) and the trigger and aggregation methods. -/
def handlerOperations : List String :=
  ["on_result", "on_exception", "set_result", "set_exception", "aggregate"]

/-! ### `Handler.aggregate`, `src/obelus/common.py` lines 72–94 -/

/-- A record of the aggregate result handler: its `_triggered` flag and the
list of firings (`set_result`/`set_exception` calls) it received, in
order. -/
structure FiringLog (α ε : Type) where
  triggered : Bool
  fired : List (Outcome α ε)
  deriving Repr, DecidableEq

/-- State of the closures created by `Handler.aggregate(handlers)`:
the `results` list (with `None` placeholders), the `pending` index set and
the `result_handler`.  The aggregate delivers the `results` list itself,
hence the `List (Option α)` payload. -/
structure AggState (α ε : Type) where
  handler : FiringLog (List (Option α)) ε
  results : List (Option α)
  pending : Finset Nat
  deriving DecidableEq

/-- Error raised out of an aggregate callback (`set.remove` on a missing
element, or a second trigger). -/
inductive AggErr where
  | keyError
  | runtimeError
  deriving Repr, DecidableEq

/-- `Handler.aggregate`'s initial closure state for `n` fresh handlers:
`results = [None] * n`, `pending = set(range(n))`. -/
def aggInit (α ε : Type) (n : Nat) : AggState α ε :=
  { handler := ⟨false, []⟩
    results := List.replicate n none
    pending := Finset.range n }

/-- The `_on_result(i, res)` closure. -/
def aggOnResult {α ε : Type} (st : AggState α ε) (i : Nat) (res : α) :
    Except AggErr (AggState α ε) :=
  if st.handler.triggered then .ok st
  else if i ∈ st.pending then
    let pending' := st.pending.erase i
    let results' := st.results.set i (some res)
    if pending' = ∅ then
      .ok { handler := ⟨true, st.handler.fired ++ [.ok results']⟩
            results := results'
            pending := pending' }
    else
      .ok { st with results := results', pending := pending' }
  else .error .keyError

/-- The `_on_exception(exc)` closure. -/
def aggOnException {α ε : Type} (st : AggState α ε) (e : ε) :
    AggState α ε :=
  if st.handler.triggered then st
  else { st with handler := ⟨true, st.handler.fired ++ [.exc e]⟩ }

/-- One child completion delivered to the aggregate. -/
def aggStep {α ε : Type} (st : AggState α ε) (ev : Nat × Outcome α ε) :
    Except AggErr (AggState α ε) :=
  match ev.2 with
  | .ok a => aggOnResult st ev.1 a
  | .exc e => .ok (aggOnException st e)

/-- Deliver a sequence of child completions to the aggregate. -/
def aggRun {α ε : Type} (st : AggState α ε) :
    List (Nat × Outcome α ε) → Except AggErr (AggState α ε)
  | [] => .ok st
  | ev :: evs =>
    match aggStep st ev with
    | .ok st' => aggRun st' evs
    | .error e => .error e

/-- The `results` list once every child `i < n` has delivered its
result. -/
def fullResults {α ε : Type} (n : Nat) (outcomes : Nat → Outcome α ε) :
    List (Option α) :=
  (List.range n).map (fun i => (outcomes i).val?)

/-- Aggregate closure state after the children with indices in
`processed` (all `< n`) have delivered successful results and the
aggregate has not fired yet. -/
def partialState (α ε : Type) (n : Nat) (outcomes : Nat → Outcome α ε)
    (processed : Finset Nat) : AggState α ε :=
  { handler := ⟨false, []⟩
    results := (List.range n).map
      (fun i => if i ∈ processed then (outcomes i).val? else none)
    pending := Finset.range n \ processed }

/-! ### AGI command escaping, `src/obelus/agi/protocol.py` -/

/-- `re.sub(r'([\\"])', r'\\\1', arg)`: prefix every backslash and double
quote with a backslash. -/
def escapeChars (l : List Char) : List Char :=
  l.flatMap (fun c => if c = '\\' ∨ c = '"' then ['\\', c] else [c])

/-- `AGIProtocol._escape_arg`: reject `\0` and `\n`; quote when the
argument is empty, was changed by escaping (i.e. contains `\` or `"`), or
contains a space or tab. -/
def escapeArg (l : List Char) : Except Unit (List Char) :=
  if '\x00' ∈ l ∨ '\n' ∈ l then .error ()
  else
    let escaped := escapeChars l
    if l = [] ∨ escaped ≠ l ∨ ' ' ∈ l ∨ '\t' ∈ l then
      .ok ('"' :: (escaped ++ ['"']))
    else
      .ok escaped

/-- `' '.join(parts)` on character lists. -/
def joinSpace (ls : List (List Char)) : List Char :=
  (ls.intersperse [' ']).flatten

/-- UTF-8 encoding of one character (Python `str.encode('utf-8')`). -/
def utf8EncodeChar (c : Char) : List Nat :=
  let n := c.toNat
  if n < 0x80 then [n]
  else if n < 0x800 then [0xC0 + n / 0x40, 0x80 + n % 0x40]
  else if n < 0x10000 then
    [0xE0 + n / 0x1000, 0x80 + (n / 0x40) % 0x40, 0x80 + n % 0x40]
  else
    [0xF0 + n / 0x40000, 0x80 + (n / 0x1000) % 0x40,
     0x80 + (n / 0x40) % 0x40, 0x80 + n % 0x40]

/-- UTF-8 encoding of a character sequence. -/
def utf8Encode (l : List Char) : List Nat :=
  l.flatMap utf8EncodeChar

/-- `AGIProtocol._encode_command`: reject empty argument lists, escape
each argument, join with single spaces, append `\n` (the AGI `eol`) and
encode as UTF-8. -/
def encodeCommand (args : List (List Char)) : Except Unit (List Nat) :=
  if args.length = 0 then .error ()
  else
    match args.mapM escapeArg with
    | .error e => .error e
    | .ok escaped => .ok (utf8Encode (joinSpace escaped ++ ['\n']))

/-- The claim's (amended) description of one escaped argument: wrapped in
double quotes iff it is empty or contains a space, tab, backslash or
double quote; backslashes and double quotes are each preceded by a
backslash. -/
def claimEscape (l : List Char) : List Char :=
  if l = [] ∨ ' ' ∈ l ∨ '\t' ∈ l ∨ '\\' ∈ l ∨ '"' ∈ l then
    '"' :: (escapeChars l ++ ['"'])
  else
    l

/-- The claim's description of the serialized command line: space-join of
the escaped arguments followed by `\n`. -/
def claimLine (args : List (List Char)) : List Char :=
  joinSpace (args.map claimEscape) ++ ['\n']

/-! ### Python string helpers (on `List Char`) -/

/-- Python's notion of a whitespace character for `str.strip()`. -/
def pyWhite (c : Char) : Bool :=
  c = ' ' ∨ c = '\t' ∨ c = '\n' ∨ c = '\r' ∨ c = '\x0b' ∨ c = '\x0c'

/-- `str.rstrip()` (no arguments). -/
def pyRstrip (l : List Char) : List Char :=
  (l.reverse.dropWhile pyWhite).reverse

/-- `str.lstrip()` (no arguments). -/
def pyLstrip (l : List Char) : List Char :=
  l.dropWhile pyWhite

/-- `str.strip()`. -/
def pyStrip (l : List Char) : List Char :=
  pyLstrip (pyRstrip l)

/-- `str.rstrip('\r\n')`. -/
def rstripCRLF (l : List Char) : List Char :=
  (l.reverse.dropWhile (fun c => c = '\r' ∨ c = '\n')).reverse

/-- ASCII `str.lower()`. -/
def pyLower (l : List Char) : List Char :=
  l.map Char.toLower

/-- `str.partition(sep)` for a single-character separator: `none` when the
separator does not occur, otherwise the parts before and after its first
occurrence. -/
def pyPartition (sep : Char) : List Char → Option (List Char × List Char)
  | [] => none
  | c :: t =>
    if c = sep then some ([], t)
    else match pyPartition sep t with
      | none => none
      | some (a, b) => some (c :: a, b)

/-- `str.split(sep)` for a single-character separator. -/
def pySplitOn (sep : Char) : List Char → List (List Char)
  | [] => [[]]
  | c :: t =>
    if c = sep then [] :: pySplitOn sep t
    else match pySplitOn sep t with
      | [] => [[c]]
      | p :: ps => (c :: p) :: ps

/-- `str(n)` for a natural number: decimal digits, most significant
first. -/
def pyStr (n : Nat) : List Char :=
  if n = 0 then ['0'] else ((Nat.digits 10 n).map Nat.digitChar).reverse

/-- `BaseAMIProtocol._split_key_value`: split on the first `:`, strip the
line's trailing whitespace first and the value's leading whitespace
after; no colon is a `ValueError`. -/
def splitKeyValue (line : List Char) : Option (List Char × List Char) :=
  match pyPartition ':' (pyRstrip line) with
  | none => none
  | some (k, v) => some (k, pyLstrip v)

/-! ### `CaseDict`, modelled from the spec -/

/-- Modelled from the spec: `CaseDict` — the repository imports
`obelus.casedict.CaseDict`, but `src/obelus/casedict.py` itself is not in
the source tree (only its tests are).  Spec §4.3: a thin wrapper over an
insertion-ordered map keyed by a lower-cased view of the key, storing the
original-case key alongside the value; `in`, `get`, indexed access and
deletion are case-insensitive; iteration yields original-case keys;
updating an existing key overwrites in place. -/
structure CaseDict (β : Type) where
  entries : List (List Char × β)
  deriving Repr, DecidableEq

def CaseDict.empty {β : Type} : CaseDict β := ⟨[]⟩

/-- Lookup in the underlying insertion-ordered store by lower-cased
key. -/
def caseLookup {β : Type} (key : List Char) :
    List (List Char × β) → Option β
  | [] => none
  | (k', v) :: t => if pyLower k' = key then some v else caseLookup key t

/-- Case-insensitive lookup (`d.get(k)` / `d[k]`, `none` = `KeyError`). -/
def CaseDict.find? {β : Type} (d : CaseDict β) (k : List Char) : Option β :=
  caseLookup (pyLower k) d.entries

/-- `d.get(k, default)`. -/
def CaseDict.getD {β : Type} (d : CaseDict β) (k : List Char) (dflt : β) : β :=
  (d.find? k).getD dflt

/-- Store update by lower-cased key: overwrite in place or append. -/
def caseStore {β : Type} (k : List Char) (v : β) :
    List (List Char × β) → List (List Char × β)
  | [] => [(k, v)]
  | (k', v') :: t =>
    if pyLower k' = pyLower k then (k, v) :: t else (k', v') :: caseStore k v t

/-- `d[k] = v`: overwrite in place when a case-insensitive match exists,
else append. -/
def CaseDict.set {β : Type} (d : CaseDict β) (k : List Char) (v : β) :
    CaseDict β :=
  ⟨caseStore k v d.entries⟩

/-- Iteration: the original-case keys, in insertion order. -/
def CaseDict.keys {β : Type} (d : CaseDict β) : List (List Char) :=
  d.entries.map (·.1)

/-- `d.update(other)`: `d[k] = v` for each entry of `other`, in order. -/
def CaseDict.update {β : Type} (d other : CaseDict β) : CaseDict β :=
  other.entries.foldl (fun acc kv => acc.set kv.1 kv.2) d

/-! ### AMI parser (`BaseAMIProtocol`, `src/obelus/ami/protocol.py`) -/

/-- AMI `Response` structure. -/
structure AMIResponse where
  rtype : List Char
  headers : CaseDict (List Char)
  payload : List (List Char)
  deriving Repr, DecidableEq

/-- AMI `Event` structure. -/
structure AMIEvent where
  name : List Char
  headers : CaseDict (List Char)
  deriving Repr, DecidableEq

/-- AMI `EventList` structure. -/
structure AMIEventList where
  headers : CaseDict (List Char)
  events : List AMIEvent
  deriving Repr, DecidableEq

/-- Parser state of `BaseAMIProtocol`: the `_state` string together with
the in-progress `_resp_type`/`_event_type`, `_headers` and `_payload`
instance attributes that are only meaningful in that state. -/
inductive ParserMode where
  | init
  | idle
  | inResponse (rtype : List Char) (headers : CaseDict (List Char))
      (payload : List (List Char))
  | inEvent (name : List Char) (headers : CaseDict (List Char))
  | inResponseFollows (rtype : List Char) (headers : CaseDict (List Char))
      (payload : List (List Char))
  deriving Repr, DecidableEq

/-- A complete incoming AMI message reported by the parser. -/
inductive AMIMsg where
  | greeting (name version : List Char)
  | resp (r : AMIResponse)
  | event (e : AMIEvent)
  deriving Repr, DecidableEq

/-- The recognised response types. -/
def responseTypes : List (List Char) :=
  ["success".toList, "follows".toList, "error".toList, "goodbye".toList]

/-- The literal `--END COMMAND--` terminator. -/
def responseFollowsEnd : List Char := "--END COMMAND--".toList

/-- `BaseAMIProtocol.line_received` on one (terminator-included) line:
returns the new parser mode and the message completed by this line, if
any; `none` models a raised `ValueError` (protocol error, fatal to the
parser). -/
def amiLineReceived (mode : ParserMode) (rawLine : List Char) :
    Option (ParserMode × Option AMIMsg) :=
  let line := rstripCRLF rawLine
  match mode with
  | .init =>
    match pySplitOn '/' (pyStrip line) with
    | [name, version] => some (.idle, some (.greeting name version))
    | _ => none
  | .idle =>
    if line = [] then some (.idle, none)
    else match splitKeyValue line with
      | none => none
      | some (key, value) =>
        if key = "Response".toList then
          let rtype := pyLower value
          if rtype ∈ responseTypes then
            some (.inResponse rtype CaseDict.empty [], none)
          else none
        else if key = "Event".toList then
          some (.inEvent value CaseDict.empty, none)
        else none
  | .inResponse rtype headers payload =>
    if line = [] then
      some (.idle, some (.resp ⟨rtype, headers, payload⟩))
    else match splitKeyValue line with
      | none => none
      | some (key, value) =>
        let headers' := headers.set key value
        if rtype = "follows".toList
            ∧ "Privilege".toList ∈ headers'.keys
            ∧ "ActionID".toList ∈ headers'.keys then
          some (.inResponseFollows rtype headers' payload, none)
        else
          some (.inResponse rtype headers' payload, none)
  | .inEvent name headers =>
    if line = [] then
      some (.idle, some (.event ⟨name, headers⟩))
    else match splitKeyValue line with
      | none => none
      | some (key, value) =>
        some (.inEvent name (headers.set key value), none)
  | .inResponseFollows rtype headers payload =>
    if responseFollowsEnd.isSuffixOf line then
      let stripped := line.take (line.length - responseFollowsEnd.length)
      let payload' := if stripped ≠ [] then payload ++ [stripped] else payload
      some (.idle, some (.resp ⟨rtype, headers, payload'⟩))
    else
      some (.inResponseFollows rtype headers (payload ++ [line]), none)

/-- Feed a list of lines to the AMI parser, collecting the completed
messages; `none` models a raised protocol error. -/
def amiFeedLines (mode : ParserMode) :
    List (List Char) → Option (ParserMode × List AMIMsg)
  | [] => some (mode, [])
  | l :: ls =>
    match amiLineReceived mode l with
    | none => none
    | some (mode', msg) =>
      match amiFeedLines mode' ls with
      | none => none
      | some (mode'', msgs) =>
        some (mode'', (match msg with | none => [] | some m => [m]) ++ msgs)

/-! ### AMI multiplexer (`AMIProtocol`, `src/obelus/ami/protocol.py`) -/

/-- Everything a pending-action token can fire with. -/
inductive MuxOutcome where
  | resp (r : AMIResponse)
  | evlist (el : AMIEventList)
  | actionError (msg : List Char)
  deriving Repr, DecidableEq

/-- A pending-action `Handler` as seen by the multiplexer: its
`_triggered` flag and the deliveries it received, in order. -/
structure MuxHandler where
  triggered : Bool
  fired : List MuxOutcome
  deriving Repr, DecidableEq

def MuxHandler.fresh : MuxHandler := ⟨false, []⟩

/-- Fire a handler (`set_result`/`set_exception`); firing a triggered
handler raises `RuntimeError`, modelled as `none`. -/
def MuxHandler.fire (h : MuxHandler) (o : MuxOutcome) : Option MuxHandler :=
  if h.triggered then none else some ⟨true, h.fired ++ [o]⟩

/-- Multiplexer state (`AMIProtocol.reset`): the action-id counter, the
pending-action map, the event-lists-in-progress map, and the backing
store of all tokens ever created (indexed by creation order; the maps
store indices into it). -/
structure MuxState where
  actionId : Nat
  actions : List (List Char × Nat)
  eventLists : List (List Char × AMIEventList)
  handlers : List MuxHandler
  deriving Repr, DecidableEq

def MuxState.fresh : MuxState := ⟨1, [], [], []⟩

/-- Association-list lookup by exact (case-sensitive) string key, as
Python `dict` lookup on the decoded header value. -/
def alistFind? {β : Type} (l : List (List Char × β)) (k : List Char) :
    Option β :=
  match l with
  | [] => none
  | (k', v) :: t => if k' = k then some v else alistFind? t k

/-- Python `dict` assignment `d[k] = v`: overwrite in place or append. -/
def alistSet {β : Type} (l : List (List Char × β)) (k : List Char) (v : β) :
    List (List Char × β) :=
  match l with
  | [] => [(k, v)]
  | (k', v') :: t => if k' = k then (k, v) :: t else (k', v') :: alistSet t k v

/-- Python `del d[k]` (the callers below only delete present keys). -/
def alistErase {β : Type} (l : List (List Char × β)) (k : List Char) :
    List (List Char × β) :=
  match l with
  | [] => []
  | (k', v') :: t => if k' = k then t else (k', v') :: alistErase t k

/-- `AMIProtocol._next_action_id`. -/
def nextActionId (st : MuxState) : MuxState × List Char :=
  ({ st with actionId := st.actionId + 1 }, pyStr st.actionId)

/-- The identifier-relevant behaviour of `AMIProtocol.send_action`: take
the caller-supplied `ActionID` header if present, otherwise draw a fresh
one from the counter; create a new `Handler` and store it in `_actions`
under that identifier (a plain `dict` assignment, overwriting any
previous token).  Returns the id used. -/
def sendAction (st : MuxState) (suppliedId : Option (List Char)) :
    MuxState × List Char :=
  let (st1, actionId) :=
    match suppliedId with
    | some a => (st, a)
    | none => nextActionId st
  let idx := st1.handlers.length
  ({ st1 with
      handlers := st1.handlers ++ [MuxHandler.fresh]
      actions := alistSet st1.actions actionId idx }, actionId)

/-- Errors that escape `AMIProtocol.response_received` /
`event_received` to the byte-delivery caller. -/
inductive MuxErr where
  | keyError
  | attributeError
  | runtimeError
  | assertionError
  deriving Repr, DecidableEq

/-- Fire the handler stored at `idx`. -/
def fireAt (st : MuxState) (idx : Nat) (o : MuxOutcome) :
    Except MuxErr MuxState :=
  match st.handlers[idx]? with
  | none => .error .keyError
  | some h =>
    match h.fire o with
    | none => .error .runtimeError
    | some h' => .ok { st with handlers := st.handlers.set idx h' }

/-- `AMIProtocol.response_received`. -/
def responseReceived (st : MuxState) (resp : AMIResponse) :
    Except MuxErr MuxState :=
  match resp.headers.find? "ActionID".toList with
  | none => .error .keyError
  | some actionId =>
    match alistFind? st.actions actionId with
    | none => .ok st  -- unknown or stale response: log and drop
    | some idx =>
      if resp.rtype = "error".toList then
        fireAt { st with actions := alistErase st.actions actionId } idx
          (.actionError (resp.headers.getD "Message".toList []))
      else if resp.rtype = "success".toList ∨ resp.rtype = "goodbye".toList
          ∨ resp.rtype = "follows".toList then
        let eventType := pyLower (resp.headers.getD "EventList".toList [])
        if eventType = "start".toList then
          -- _handle_event_list_start
          if (alistFind? st.eventLists actionId).isSome then
            .ok st  -- logged error, dropped
          else
            .ok { st with
                  eventLists := alistSet st.eventLists actionId
                    ⟨resp.headers, []⟩ }
        else
          fireAt { st with actions := alistErase st.actions actionId } idx
            (.resp resp)
      else .error .assertionError

/-- `AMIProtocol.event_received`, including the Python truthiness of
`action_id and self._actions.get(action_id)`: an event carrying an
*empty* `ActionID` value falls into the event-list branch with the falsy
string standing in for the event list, and every path there raises.
Returns the updated state and, when the event was not part of an event
list, the event to dispatch to named handlers. -/
def eventReceived (st : MuxState) (ev : AMIEvent) :
    Except MuxErr (MuxState × Option AMIEvent) :=
  match ev.headers.find? "ActionID".toList with
  | none => .ok (st, some ev)
  | some actionId =>
    if actionId = [] then
      -- `event_list` is `''`, which `is not None`
      let eventType := pyLower (ev.headers.getD "EventList".toList [])
      if eventType = "complete".toList then
        if (alistFind? st.eventLists actionId).isSome then
          if (alistFind? st.actions actionId).isSome then
            .error .attributeError  -- `''.headers` on the falsy stand-in
          else .error .keyError     -- `del self._actions['']`
        else .error .keyError       -- `del self._event_lists['']`
      else .error .attributeError   -- `''.events.append(event)`
    else
      match alistFind? st.actions actionId with
      | none => .ok (st, some ev)
      | some idx =>
        match alistFind? st.eventLists actionId with
        | none => .ok (st, some ev)
        | some el =>
          let eventType := pyLower (ev.headers.getD "EventList".toList [])
          if eventType = "complete".toList then
            match fireAt
                { st with
                  actions := alistErase st.actions actionId
                  eventLists := alistErase st.eventLists actionId }
                idx (.evlist ⟨el.headers.update ev.headers, el.events⟩) with
            | .ok st' => .ok (st', none)
            | .error e => .error e
          else
            .ok ({ st with
                   eventLists := alistSet st.eventLists actionId
                     ⟨el.headers, el.events ++ [ev]⟩ }, none)

/-- Feed a sequence of events to `AMIProtocol.event_received`,
discarding the dispatch information. -/
def feedEvents (st : MuxState) : List AMIEvent → Except MuxErr MuxState
  | [] => .ok st
  | ev :: evs =>
    match eventReceived st ev with
    | .error e => .error e
    | .ok (st', _) => feedEvents st' evs

/-- The event-list scenario of the spec: one response, then a series of
events, then the completion event. -/
def eventListScenario (st : MuxState) (resp : AMIResponse)
    (evs : List AMIEvent) (compl' : AMIEvent) : Except MuxErr MuxState :=
  match responseReceived st resp with
  | .error e => .error e
  | .ok st1 =>
    match feedEvents st1 evs with
    | .error e => .error e
    | .ok st2 =>
      match eventReceived st2 compl' with
      | .error e => .error e
      | .ok (st3, _) => .ok st3

/-- Issue `n` consecutive `send_action` calls that do not supply their
own `ActionID`, collecting the identifiers drawn from the counter. -/
def sendAuto (st : MuxState) : Nat → MuxState × List (List Char)
  | 0 => (st, [])
  | n + 1 =>
    let r := sendAction st none
    let r' := sendAuto r.1 n
    (r'.1, r.2 :: r'.2)

/-! ### Call manager (`CallManager`, `src/obelus/ami/calls.py`) -/

/-- `int(s, 10)` on a stripped string: optional sign followed by one or
more decimal digits (digit-grouping underscores are not modelled; none of
the inputs considered here contain them). -/
def pyInt? (l : List Char) : Option Int :=
  match pyStrip l with
  | [] => none
  | '-' :: ds => (digitsVal? ds).map (fun n => -(n : Int))
  | '+' :: ds => (digitsVal? ds).map (fun n => (n : Int))
  | ds => (digitsVal? ds).map (fun n => (n : Int))
where
  digitsVal? : List Char → Option Nat := fun ds =>
    if ds = [] then none
    else if ds.all (fun c => c.isDigit) then
      some (ds.foldl (fun acc c => acc * 10 + (c.toNat - 48)) 0)
    else none

/-- The per-`Call` state relevant to hangup tracking: `_call_id`,
`_unique_ids` and `_last_hangup_cause`. -/
structure CallState where
  callId : List Char
  uniqueIds : Finset (List Char)
  lastHangupCause : Option (Int × List Char)
  deriving DecidableEq

/-- `CallManager` state relevant to hangup tracking.  Call objects live
in a heap (list indexed by creation order); `_unique_ids` and `_calls`
map to heap indices, modelling Python's shared object references. -/
structure CMState where
  heap : List CallState
  newChannels : List (List Char × CaseDict (List Char))
  uniqueIds : List (List Char × Nat)
  calls : List (List Char × Nat)
  deriving DecidableEq

inductive CMErr where
  | keyError
  | valueError
  | typeError
  deriving Repr, DecidableEq

/-- `CallManager._update_hangup_cause`: parse `Cause` (default `'0'`),
and record `(cause, Cause-txt)` if the cause is non-zero or no cause is
recorded yet. -/
def updateHangupCause (call : CallState) (headers : CaseDict (List Char)) :
    Option CallState :=
  match pyInt? (headers.getD "Cause".toList "0".toList) with
  | none => none
  | some cause =>
    if cause ≠ 0 ∨ call.lastHangupCause = none then
      some { call with
             lastHangupCause :=
               some (cause, headers.getD "Cause-txt".toList []) }
    else
      some call

/-- `CallManager.on_hangup`: returns the new state and the
`call_ended(cause, cause_desc)` invocations (empty or a singleton). -/
def onHangup (st : CMState) (headers : CaseDict (List Char)) :
    Except CMErr (CMState × List (Int × List Char)) :=
  match headers.find? "Uniqueid".toList with
  | none => .error .keyError
  | some uid =>
    let nc' := alistErase st.newChannels uid
    match alistFind? st.uniqueIds uid with
    | none =>
      .ok ({ st with
             newChannels := nc'
             uniqueIds := alistErase st.uniqueIds uid }, [])
    | some cidx =>
      let ui' := alistErase st.uniqueIds uid
      match st.heap[cidx]? with
      | none => .error .keyError
      | some call =>
        if uid ∈ call.uniqueIds then
          let call1 := { call with uniqueIds := call.uniqueIds.erase uid }
          match updateHangupCause call1 headers with
          | none => .error .valueError
          | some call2 =>
            let heap' := st.heap.set cidx call2
            if call2.uniqueIds = ∅ then
              if (alistFind? st.calls call2.callId).isSome then
                match call2.lastHangupCause with
                | none => .error .typeError
                | some (cause, causeTxt) =>
                  .ok ({ heap := heap'
                         newChannels := nc'
                         uniqueIds := ui'
                         calls := alistErase st.calls call2.callId },
                       [(cause, causeTxt)])
              else .error .keyError
            else
              .ok ({ st with
                     heap := heap'
                     newChannels := nc'
                     uniqueIds := ui' }, [])
        else .error .keyError

/-- The headers of a `Hangup` event for channel `u` with cause 21
`Call Rejected`. -/
def hangupHeaders (u : List Char) : CaseDict (List Char) :=
  ⟨[("Uniqueid".toList, u),
    ("Cause".toList, "21".toList),
    ("Cause-txt".toList, "Call Rejected".toList)]⟩

/-- Call-manager state tracking one call `cid` whose channel set is
exactly `{u1, u2}`. -/
def twoChannelState (u1 u2 cid : List Char)
    (prior : Option (Int × List Char)) : CMState :=
  { heap := [⟨cid, {u1, u2}, prior⟩]
    newChannels := []
    uniqueIds := [(u1, 0), (u2, 0)]
    calls := [(cid, 0)] }

/-! ### Lemmas about `pySplitlinesKeep` and list flattening -/

lemma getLast?_append_right {α : Type} (l₁ l₂ : List α) (h : l₂ ≠ []) :
    (l₁ ++ l₂).getLast? = l₂.getLast? := by
  rw [List.getLast?_append]
  cases l₂ with
  | nil => simp at h
  | cons a t => simp [List.getLast?_cons]

lemma flatten_dropLast_getLastD {α : Type} (l : List (List α)) :
    l.dropLast.flatten ++ l.getLastD [] = l.flatten := by
  induction l using List.reverseRecOn with
  | nil => simp
  | append_singleton t a _ =>
      have h : (t ++ [a]).getLast? = some a := by simp
      have : (t ++ [a]).getLastD [] = a := by
        rw [List.getLastD_eq_getLast?, h]; rfl
      simp [this]

@[simp] lemma splitlines_nil : pySplitlinesKeep [] = [] := rfl

@[simp] lemma splitlines_lf (rest : List Nat) :
    pySplitlinesKeep (10 :: rest) = [10] :: pySplitlinesKeep rest := rfl

@[simp] lemma splitlines_cr_lf (rest : List Nat) :
    pySplitlinesKeep (13 :: 10 :: rest) = [13, 10] :: pySplitlinesKeep rest := rfl

lemma splitlines_cr_other (b' : Nat) (rest' : List Nat) (h : b' ≠ 10) :
    pySplitlinesKeep (13 :: b' :: rest') = [13] :: pySplitlinesKeep (b' :: rest') := by
  rw [pySplitlinesKeep.eq_def]
  split <;> simp_all

lemma splitlines_other (b : Nat) (rest : List Nat) (h1 : b ≠ 10) (h2 : b ≠ 13) :
    pySplitlinesKeep (b :: rest)
      = match pySplitlinesKeep rest with
        | [] => [[b]]
        | p :: ps => (b :: p) :: ps := by
  rw [pySplitlinesKeep.eq_def]
  split <;> simp_all

lemma splitlines_flatten : ∀ l : List Nat, (pySplitlinesKeep l).flatten = l := by
  intro l
  induction l using pySplitlinesKeep.induct with
  | case1 => simp
  | case2 rest ih => simp [ih]
  | case3 rest ih => simp [ih]
  | case4 rest hnot ih =>
      have hne : ∀ rest₁, rest ≠ 10 :: rest₁ := fun r h => hnot r h
      match rest with
      | [] => rfl
      | b' :: rest' =>
          have hb' : b' ≠ 10 := by
            intro h; exact hne rest' (by rw [h])
          rw [splitlines_cr_other b' rest' hb']
          simpa using ih
  | case5 b rest hb hcr hb2 heq ih =>
      have hrest : rest = [] := by rw [heq] at ih; simpa using ih.symm
      subst hrest
      rw [splitlines_other b [] (fun h => hb h) (fun h => hb2 h)]
      simp
  | case6 b rest hb hcr hb2 p ps heq ih =>
      rw [splitlines_other b rest (fun h => hb h) (fun h => hb2 h), heq]
      rw [heq] at ih
      simpa using ih

lemma splitlines_parts_ne_nil : ∀ (l : List Nat), ∀ p ∈ pySplitlinesKeep l, p ≠ [] := by
  intro l
  induction l using pySplitlinesKeep.induct with
  | case1 => simp
  | case2 rest ih => simpa using ih
  | case3 rest ih => simpa using ih
  | case4 rest hnot ih =>
      match rest with
      | [] => simp [pySplitlinesKeep]
      | b' :: rest' =>
          have hb' : b' ≠ 10 := by
            intro h; exact hnot rest' (by rw [h])
          rw [splitlines_cr_other b' rest' hb']
          simpa using ih
  | case5 b rest hb hcr hb2 heq ih =>
      rw [splitlines_other b rest (fun h => hb h) (fun h => hb2 h), heq]
      simp
  | case6 b rest hb hcr hb2 p ps heq ih =>
      rw [splitlines_other b rest (fun h => hb h) (fun h => hb2 h), heq]
      rw [heq] at ih
      intro q hq
      rcases List.mem_cons.1 hq with h | h
      · subst h; simp
      · exact ih q (by simp [h])

lemma splitlines_eq_nil_iff (l : List Nat) : pySplitlinesKeep l = [] ↔ l = [] := by
  constructor
  · intro h
    have hf := splitlines_flatten l
    rw [h] at hf
    simpa using hf.symm
  · intro h; subst h; rfl

lemma flatten_getLast? {α : Type} (ls : List (List α)) (h : ∀ p ∈ ls, p ≠ [])
    (hne : ls ≠ []) : ls.flatten.getLast? = (ls.getLastD []).getLast? := by
  induction ls using List.reverseRecOn with
  | nil => simp at hne
  | append_singleton t a _ =>
      have ha : a ≠ [] := h a (by simp)
      have h1 : (t ++ [a]).getLastD [] = a := by
        rw [List.getLastD_eq_getLast?]; simp
      rw [h1, List.flatten_append]
      simp only [List.flatten_cons, List.flatten_nil, List.append_nil]
      exact getLast?_append_right _ _ ha

lemma splitlines_last_getLast? (l : List Nat) (h : l ≠ []) :
    ((pySplitlinesKeep l).getLastD []).getLast? = l.getLast? := by
  have h1 := splitlines_flatten l
  have h2 : pySplitlinesKeep l ≠ [] := by
    rw [Ne, splitlines_eq_nil_iff]; exact h
  rw [← flatten_getLast? _ (splitlines_parts_ne_nil l) h2, h1]

/-! ### Step lemmas for `dataReceived` -/

lemma dataReceived_concat (st : LRState) (data : List Nat)
    (hstrip : ¬(st.buffer = [] ∧ st.eatLF = true ∧ data.head? = some 10)) :
    (dataReceived st data).2.flatten ++ (dataReceived st data).1.buffer.flatten
      = st.buffer.flatten ++ data := by
  simp only [dataReceived, LF, if_neg hstrip]
  by_cases hguard : (pySplitlinesKeep (st.buffer.getLastD [] ++ data)).length ≤ 1
      ∧ ¬ endsTerm data = true
  · rw [if_pos hguard]
    simp
  · rw [if_neg hguard]
    rcases hp : pySplitlinesKeep (st.buffer.getLastD [] ++ data) with _ | ⟨first, rest⟩
    · exfalso
      have hdata : st.buffer.getLastD [] ++ data = [] := by
        rw [← splitlines_flatten (st.buffer.getLastD [] ++ data), hp]; rfl
      have hdata' : data = [] := (List.append_eq_nil.mp hdata).2
      exact hguard ⟨by rw [hp]; simp, by simp [hdata', endsTerm]⟩
    · have hkey : st.buffer.dropLast.flatten ++ (first :: rest).flatten
          = st.buffer.flatten ++ data := by
        rw [← hp, splitlines_flatten, ← List.append_assoc, flatten_dropLast_getLastD]
      dsimp only
      rcases rest with _ | ⟨r, rs⟩
      · rw [if_pos rfl]
        simpa using hkey
      · rw [if_neg (by simp)]
        have hrest : (r :: rs).dropLast.flatten ++ (r :: rs).getLastD []
            = (r :: rs).flatten := flatten_dropLast_getLastD _
        by_cases hterm : endsTerm ((r :: rs).getLastD []) = true
        · rw [if_pos hterm]
          dsimp only
          simp only [List.flatten_cons, List.flatten_append, List.flatten_nil,
            List.append_nil, List.append_assoc] at hkey hrest ⊢
          rw [hrest]
          exact hkey
        · rw [if_neg hterm]
          dsimp only
          simp only [List.flatten_cons, List.flatten_append, List.flatten_nil,
            List.append_nil, List.append_assoc] at hkey hrest ⊢
          rw [hrest]
          exact hkey

lemma getLastD_congr {α : Type} (l : List α) (h : l ≠ []) (d₁ d₂ : α) :
    l.getLastD d₁ = l.getLastD d₂ := by
  rw [List.getLastD_eq_getLast?, List.getLastD_eq_getLast?,
    List.getLast?_eq_getLast _ h]
  rfl

lemma endsTerm_congr (a b : List Nat) (h : a.getLast? = b.getLast?) :
    endsTerm a = endsTerm b := by
  simp [endsTerm, h]

lemma dataReceived_buffer_term (st : LRState) (data : List Nat)
    (hstrip : ¬(st.buffer = [] ∧ st.eatLF = true ∧ data.head? = some 10))
    (hterm : endsTerm data = true) :
    (dataReceived st data).1.buffer = [] := by
  have hdata : data ≠ [] := by
    intro h; rw [h] at hterm; simp [endsTerm] at hterm
  have hwhole : st.buffer.getLastD [] ++ data ≠ [] := by
    intro h; exact hdata (List.append_eq_nil.mp h).2
  simp only [dataReceived, LF, if_neg hstrip]
  rw [if_neg (by intro h; exact absurd hterm h.2)]
  rcases hp : pySplitlinesKeep (st.buffer.getLastD [] ++ data) with _ | ⟨first, rest⟩
  · rfl
  · dsimp only
    rcases rest with _ | ⟨r, rs⟩
    · rw [if_pos rfl]
    · rw [if_neg (by simp)]
      have hlast : ((first :: r :: rs).getLastD []).getLast?
          = (st.buffer.getLastD [] ++ data).getLast? := by
        rw [← hp]; exact splitlines_last_getLast? _ hwhole
      have hcons : (first :: r :: rs).getLastD [] = (r :: rs).getLastD [] := by
        rw [List.getLastD_cons, getLastD_congr (r :: rs) (by simp) first []]
      have htermLast : endsTerm ((r :: rs).getLastD []) = true := by
        rw [← hcons]
        rw [endsTerm_congr _ data (by rw [hlast, getLast?_append_right _ _ hdata])]
        exact hterm
      rw [if_pos htermLast]

lemma dataReceived_eatLF (st : LRState) (data : List Nat)
    (hinv : st.eatLF = true → st.buffer = [])
    (hstrip : ¬(st.buffer = [] ∧ st.eatLF = true ∧ data.head? = some 10))
    (hdata : data ≠ []) :
    ((dataReceived st data).1.eatLF = true → data.getLast? = some 13)
    ∧ ((dataReceived st data).1.eatLF = true → (dataReceived st data).1.buffer = []) := by
  have heat0 : (if st.buffer = [] then false else st.eatLF) = false := by
    by_cases h : st.buffer = []
    · simp [h]
    · simp only [if_neg h]
      cases he : st.eatLF with
      | false => rfl
      | true => exact absurd (hinv he) h
  have hwhole : st.buffer.getLastD [] ++ data ≠ [] := by
    intro h; exact hdata (List.append_eq_nil.mp h).2
  simp only [dataReceived, LF, if_neg hstrip, heat0]
  by_cases hguard : (pySplitlinesKeep (st.buffer.getLastD [] ++ data)).length ≤ 1
      ∧ ¬ endsTerm data = true
  · rw [if_pos hguard]
    simp
  · rw [if_neg hguard]
    rcases hp : pySplitlinesKeep (st.buffer.getLastD [] ++ data) with _ | ⟨first, rest⟩
    · simp
    · dsimp only
      rcases rest with _ | ⟨r, rs⟩
      · rw [if_pos rfl]
        simp only [Bool.false_or]
        constructor
        · intro hcr
          -- the single emitted line is the whole buffered data
          have hfirst : first = st.buffer.getLastD [] ++ data := by
            have := splitlines_flatten (st.buffer.getLastD [] ++ data)
            rw [hp] at this
            simpa using this
          simp only [endsCR] at hcr
          have : (st.buffer.dropLast.flatten ++ first).getLast? = data.getLast? := by
            rw [hfirst, ← List.append_assoc]
            exact getLast?_append_right _ _ hdata
          rw [← this]
          simpa using hcr
        · intro _; trivial
      · rw [if_neg (by simp)]
        by_cases hterm : endsTerm ((r :: rs).getLastD []) = true
        · rw [if_pos hterm]
          simp only [Bool.false_or]
          constructor
          · intro hcr
            simp only [endsCR] at hcr
            have hcons : (first :: r :: rs).getLastD [] = (r :: rs).getLastD [] := by
              rw [List.getLastD_cons, getLastD_congr (r :: rs) (by simp) first []]
            have hlast : ((first :: r :: rs).getLastD []).getLast?
                = (st.buffer.getLastD [] ++ data).getLast? := by
              rw [← hp]; exact splitlines_last_getLast? _ hwhole
            rw [hcons] at hlast
            rw [← getLast?_append_right (st.buffer.getLastD []) data hdata, ← hlast]
            simpa using hcr
          · intro _; trivial
        · rw [if_neg hterm]
          simp

/-- Partition condition: no chunk boundary falls between a `\r` and an
immediately following `\n`. -/
def noSplitCRLF (chunks : List (List Nat)) : Prop :=
  List.Chain' (fun a b => a.getLast? = some 13 → b.head? ≠ some 10) chunks

instance (chunks : List (List Nat)) : Decidable (noSplitCRLF chunks) :=
  inferInstanceAs (Decidable (List.Chain' _ chunks))

lemma feedAll_spec : ∀ (chunks : List (List Nat)) (st : LRState),
    (st.eatLF = true → st.buffer = []) →
    (st.eatLF = true → ∀ c, chunks.head? = some c → c.head? ≠ some 10) →
    (∀ c ∈ chunks, c ≠ []) →
    noSplitCRLF chunks →
    ((feedAll st chunks).2.flatten ++ (feedAll st chunks).1.buffer.flatten
       = st.buffer.flatten ++ chunks.flatten)
    ∧ ((feedAll st chunks).1.eatLF = true → (feedAll st chunks).1.buffer = [])
    ∧ (∀ lc, chunks.getLast? = some lc → endsTerm lc = true →
        (feedAll st chunks).1.buffer = []) := by
  intro chunks
  induction chunks with
  | nil =>
      intro st hinv _ _ _
      refine ⟨by simp [feedAll], hinv, ?_⟩
      intro lc h
      simp at h
  | cons c cs ih =>
      intro st hinv hhead hne hchain
      have hc_ne : c ≠ [] := hne c (by simp)
      have hstrip : ¬(st.buffer = [] ∧ st.eatLF = true ∧ c.head? = some 10) := by
        rintro ⟨_, h2, h3⟩
        exact hhead h2 c rfl h3
      have hconcat := dataReceived_concat st c hstrip
      obtain ⟨hlastCR, hinv1⟩ := dataReceived_eatLF st c hinv hstrip hc_ne
      have hhead1 : (dataReceived st c).1.eatLF = true →
          ∀ c', cs.head? = some c' → c'.head? ≠ some 10 := by
        intro he c' hc'
        have hcr := hlastCR he
        rcases cs with _ | ⟨c₀, cs'⟩
        · simp at hc'
        · simp at hc'
          subst hc'
          exact (List.chain'_cons.mp hchain).1 hcr
      have hchain1 : noSplitCRLF cs := hchain.tail
      have hne1 : ∀ x ∈ cs, x ≠ [] := fun x hx => hne x (by simp [hx])
      obtain ⟨ih1, ih2, ih3⟩ := ih (dataReceived st c).1 hinv1 hhead1 hne1 hchain1
      refine ⟨?_, ?_, ?_⟩
      · show ((dataReceived st c).2 ++ (feedAll (dataReceived st c).1 cs).2).flatten
            ++ (feedAll (dataReceived st c).1 cs).1.buffer.flatten = _
        rw [List.flatten_append, List.append_assoc, ih1, ← List.append_assoc,
          hconcat]
        simp [feedAll]
      · exact ih2
      · intro lc hlc hterm
        rcases cs with _ | ⟨c₀, cs'⟩
        · have heq : c = lc := by simpa using hlc
          cases heq
          show (feedAll (dataReceived st c).1 []).1.buffer = []
          simp only [feedAll]
          exact dataReceived_buffer_term st c hstrip hterm
        · have hlc' : (c₀ :: cs').getLast? = some lc := by
            simpa [List.getLast?_cons_cons] using hlc
          exact ih3 lc hlc' hterm

/-! ### Claim C1 -/

/-- C1, counterexample: the claim is false as stated.  For the byte
sequence `S = "a\r\n"` (which ends with a line terminator) and the
partition `["a\r", "\n"]`, `LineReceiver.data_received` emits only the
line `"a\r"` — the `\r` is emitted immediately and the `\n` arriving in
the next chunk is consumed silently — so the concatenation of the
emitted lines is `"a\r"`, not `S`. -/
theorem c1_counterexample :
    endsTerm (([[97, 13], [10]] : List (List Nat)).flatten) = true
    ∧ (feedAll LRState.init [[97, 13], [10]]).2 = [[97, 13]]
    ∧ (feedAll LRState.init [[97, 13], [10]]).2.flatten
        ≠ ([[97, 13], [10]] : List (List Nat)).flatten := by
  refine ⟨by decide, by decide, by decide⟩

/-- C1, amended: for every byte sequence `S` that ends with a line
terminator and every partition of `S` into nonempty chunks in which no
chunk boundary falls between a `\r` and an immediately following `\n`,
the concatenation of all lines passed to `line_received` equals `S`.
(When a boundary does split a `\r\n` pair, the `\n` is consumed silently
and is missing from the concatenation, as the counterexample shows.) -/
theorem c1_line_concat (chunks : List (List Nat))
    (hne : ∀ c ∈ chunks, c ≠ [])
    (hchain : noSplitCRLF chunks)
    (hterm : endsTerm chunks.flatten = true) :
    (feedAll LRState.init chunks).2.flatten = chunks.flatten := by
  have hchne : chunks ≠ [] := by
    intro h; subst h; simp [endsTerm] at hterm
  have hlast : chunks.getLast? = some (chunks.getLastD []) := by
    rw [List.getLastD_eq_getLast?, List.getLast?_eq_getLast _ hchne]; rfl
  have hfl := flatten_getLast? chunks hne hchne
  have htermLast : endsTerm (chunks.getLastD []) = true := by
    rw [endsTerm_congr _ chunks.flatten hfl.symm]; exact hterm
  obtain ⟨h1, _, h3⟩ := feedAll_spec chunks LRState.init
    (by intro h; simp [LRState.init] at h)
    (by intro h; simp [LRState.init] at h)
    hne hchain
  have hbuf := h3 _ hlast htermLast
  rw [hbuf] at h1
  simpa [LRState.init] using h1

/-- C1, witness: the amended theorem applied to the concrete stream
`"a\rb\n"` split as `["a\r", "b\n"]`. -/
theorem c1_line_concat_witness :
    (∀ c ∈ ([[97, 13], [98, 10]] : List (List Nat)), c ≠ [])
    ∧ noSplitCRLF [[97, 13], [98, 10]]
    ∧ endsTerm (([[97, 13], [98, 10]] : List (List Nat)).flatten) = true
    ∧ (feedAll LRState.init [[97, 13], [98, 10]]).2.flatten
        = ([[97, 13], [98, 10]] : List (List Nat)).flatten :=
  ⟨by decide, by simp [noSplitCRLF], by decide,
    c1_line_concat [[97, 13], [98, 10]] (by decide) (by simp [noSplitCRLF])
      (by decide)⟩

/-! ### Lemmas about `Handler.aggregate` -/

lemma set_map_range {β : Type} (n i : Nat) (f : Nat → β) (v : β) (hi : i < n) :
    ((List.range n).map f).set i v
      = (List.range n).map (fun j => if j = i then v else f j) := by
  apply List.ext_getElem?
  intro j
  rw [List.getElem?_set]
  by_cases hij : i = j
  · subst hij
    simp [List.getElem?_map, List.getElem?_range, hi]
  · rw [if_neg hij]
    by_cases hj : j < n
    · simp [List.getElem?_map, List.getElem?_range, hj, Ne.symm hij]
    · have h1 : ((List.range n).map f)[j]? = none := by
        rw [List.getElem?_eq_none]
        simpa using Nat.le_of_not_lt hj
      have h2 : ((List.range n).map (fun j => if j = i then v else f j))[j]? = none := by
        rw [List.getElem?_eq_none]
        simpa using Nat.le_of_not_lt hj
      rw [h1, h2]

lemma erase_sdiff_insert (s t : Finset Nat) (i : Nat) :
    (s \ t).erase i = s \ insert i t := by
  ext x; simp; tauto

lemma aggInit_eq_partialState (α ε : Type) (n : Nat) (outcomes : Nat → Outcome α ε) :
    aggInit α ε n = partialState α ε n outcomes ∅ := by
  simp [aggInit, partialState, List.map_const']

lemma aggStep_ignore {α ε : Type} (st : AggState α ε) (ev : Nat × Outcome α ε)
    (h : st.handler.triggered = true) : aggStep st ev = .ok st := by
  rcases ev with ⟨i, o⟩
  cases o with
  | ok a => simp [aggStep, aggOnResult, h]
  | exc e => simp [aggStep, aggOnException, h]

lemma aggRun_ignore {α ε : Type} (st : AggState α ε)
    (evs : List (Nat × Outcome α ε)) (h : st.handler.triggered = true) :
    aggRun st evs = .ok st := by
  induction evs with
  | nil => rfl
  | cons ev evs ih =>
      simp only [aggRun, aggStep_ignore st ev h]
      exact ih

lemma aggStep_partial_mid {α ε : Type} (n : Nat) (outcomes : Nat → Outcome α ε)
    (processed : Finset Nat) (i : Nat) (a : α)
    (hi : i < n) (hnotin : i ∉ processed)
    (hok : outcomes i = .ok a)
    (hne : Finset.range n \ insert i processed ≠ ∅) :
    aggStep (partialState α ε n outcomes processed) (i, outcomes i)
      = .ok (partialState α ε n outcomes (insert i processed)) := by
  rw [hok]
  simp only [aggStep, aggOnResult, partialState]
  rw [if_neg (by simp)]
  rw [if_pos (by simp [Finset.mem_sdiff, Finset.mem_range, hi, hnotin])]
  rw [erase_sdiff_insert]
  rw [if_neg hne]
  simp only [Except.ok.injEq, AggState.mk.injEq]
  refine ⟨by trivial, ?_, by trivial⟩
  rw [set_map_range n i _ (some a) hi]
  apply List.map_congr_left
  intro j hj
  by_cases hij : j = i
  · subst hij
    simp [hok, Outcome.val?]
  · simp [hij, Finset.mem_insert]

lemma aggStep_partial_last {α ε : Type} (n : Nat) (outcomes : Nat → Outcome α ε)
    (processed : Finset Nat) (i : Nat) (a : α)
    (hi : i < n) (hnotin : i ∉ processed)
    (hok : outcomes i = .ok a)
    (hfull : Finset.range n \ insert i processed = ∅) :
    aggStep (partialState α ε n outcomes processed) (i, outcomes i)
      = .ok { handler := ⟨true, [.ok (fullResults n outcomes)]⟩
              results := fullResults n outcomes
              pending := ∅ } := by
  have hcover : Finset.range n ⊆ insert i processed :=
    Finset.sdiff_eq_empty_iff_subset.mp hfull
  have hresults : ((List.range n).map
        (fun j => if j ∈ processed then (outcomes j).val? else none)).set i (some a)
      = fullResults n outcomes := by
    rw [set_map_range n i _ (some a) hi]
    apply List.map_congr_left
    intro j hj
    have hjn : j < n := by simpa using hj
    have hjmem : j ∈ insert i processed := hcover (by simpa using hjn)
    by_cases hij : j = i
    · subst hij; simp [hok, Outcome.val?]
    · rcases Finset.mem_insert.mp hjmem with h | h
      · exact absurd h hij
      · simp [hij, h]
  rw [hok]
  simp only [aggStep, aggOnResult, partialState]
  rw [if_neg (by simp)]
  rw [if_pos (by simp [Finset.mem_sdiff, Finset.mem_range, hi, hnotin])]
  rw [erase_sdiff_insert]
  rw [if_pos hfull]
  simp only [Except.ok.injEq, AggState.mk.injEq]
  refine ⟨?_, hresults, hfull⟩
  simp only [FiringLog.mk.injEq, List.nil_append, true_and]
  rw [hresults]

lemma aggRun_partialState {α ε : Type} (n : Nat) (outcomes : Nat → Outcome α ε) :
    ∀ (pre : List Nat) (processed : Finset Nat),
    pre.Nodup → (∀ i ∈ pre, i < n) → (∀ i ∈ pre, i ∉ processed) →
    (∀ i ∈ pre, (outcomes i).isOk = true) →
    Finset.range n \ (processed ∪ pre.toFinset) ≠ ∅ →
    aggRun (partialState α ε n outcomes processed)
        (pre.map (fun i => (i, outcomes i)))
      = .ok (partialState α ε n outcomes (processed ∪ pre.toFinset)) := by
  intro pre
  induction pre with
  | nil =>
      intro processed _ _ _ _ _
      simp [aggRun]
  | cons i pre ih =>
      intro processed hnd hlt hdisj hok hne
      have hi : i < n := hlt i (by simp)
      obtain ⟨a, ha⟩ : ∃ a, outcomes i = .ok a := by
        have := hok i (by simp)
        cases h : outcomes i with
        | ok a => exact ⟨a, rfl⟩
        | exc e => rw [h] at this; simp [Outcome.isOk] at this
      have hsub : insert i processed ⊆ processed ∪ (i :: pre).toFinset := by
        intro x hx
        rcases Finset.mem_insert.mp hx with h | h
        · subst h; simp
        · simp [h]
      have hne' : Finset.range n \ insert i processed ≠ ∅ := by
        intro h
        apply hne
        rw [Finset.sdiff_eq_empty_iff_subset] at h ⊢
        exact h.trans hsub
      have hstep := aggStep_partial_mid n outcomes processed i a hi
        (hdisj i (by simp)) ha hne'
      simp only [List.map_cons, aggRun, hstep]
      have hrest := ih (insert i processed) (List.nodup_cons.mp hnd).2
        (fun j hj => hlt j (by simp [hj]))
        (fun j hj => by
          have hji : j ≠ i := by
            intro h; subst h; exact (List.nodup_cons.mp hnd).1 hj
          have := hdisj j (by simp [hj])
          simp [Finset.mem_insert, hji, this])
        (fun j hj => hok j (by simp [hj]))
        (by
          intro h
          apply hne
          rw [Finset.sdiff_eq_empty_iff_subset] at h ⊢
          refine h.trans ?_
          intro x hx
          rcases Finset.mem_union.mp hx with h' | h'
          · rcases Finset.mem_insert.mp h' with h'' | h''
            · subst h''; simp
            · simp [h'']
          · simp at h'
            simp [h'])
      rw [hrest]
      congr 1
      have : insert i processed ∪ pre.toFinset = processed ∪ (i :: pre).toFinset := by
        ext x
        simp [Finset.mem_insert, Finset.mem_union]
      rw [this]

lemma aggRun_success {α ε : Type} (n : Nat) (outcomes : Nat → Outcome α ε) :
    ∀ (evs : List Nat) (processed : Finset Nat),
    evs.Nodup → (∀ i ∈ evs, i < n) → (∀ i ∈ evs, i ∉ processed) →
    (∀ i ∈ evs, (outcomes i).isOk = true) →
    processed ⊆ Finset.range n →
    processed ∪ evs.toFinset = Finset.range n →
    Finset.range n \ processed ≠ ∅ →
    aggRun (partialState α ε n outcomes processed)
        (evs.map (fun i => (i, outcomes i)))
      = .ok { handler := ⟨true, [.ok (fullResults n outcomes)]⟩
              results := fullResults n outcomes
              pending := ∅ } := by
  intro evs
  induction evs with
  | nil =>
      intro processed _ _ _ _ hsub hcover hne
      exfalso
      apply hne
      have hpr : processed = Finset.range n := by simpa using hcover
      rw [hpr, Finset.sdiff_self]
  | cons i evs ih =>
      intro processed hnd hlt hdisj hok hsub hcover hne
      have hi : i < n := hlt i (by simp)
      obtain ⟨a, ha⟩ : ∃ a, outcomes i = .ok a := by
        have := hok i (by simp)
        cases h : outcomes i with
        | ok a => exact ⟨a, rfl⟩
        | exc e => rw [h] at this; simp [Outcome.isOk] at this
      by_cases hfull : Finset.range n \ insert i processed = ∅
      · -- `i` was the last pending child: the aggregate fires now and any
        -- remaining completions are impossible (all indices are taken)
        have hevs : evs = [] := by
          rcases evs with _ | ⟨x, evs'⟩
          · rfl
          · exfalso
            have hx : x ∈ Finset.range n := by simpa using hlt x (by simp)
            have hx2 := Finset.sdiff_eq_empty_iff_subset.mp hfull hx
            rcases Finset.mem_insert.mp hx2 with h | h
            · subst h
              exact (List.nodup_cons.mp hnd).1 (by simp)
            · exact hdisj x (by simp) h
        subst hevs
        have hstep := aggStep_partial_last n outcomes processed i a hi
          (hdisj i (by simp)) ha hfull
        simp [aggRun, hstep]
      · have hstep := aggStep_partial_mid n outcomes processed i a hi
          (hdisj i (by simp)) ha hfull
        simp only [List.map_cons, aggRun, hstep]
        apply ih (insert i processed) (List.nodup_cons.mp hnd).2
          (fun j hj => hlt j (by simp [hj]))
          (fun j hj => by
            have hji : j ≠ i := by
              intro h; subst h; exact (List.nodup_cons.mp hnd).1 hj
            have := hdisj j (by simp [hj])
            simp [Finset.mem_insert, hji, this])
          (fun j hj => hok j (by simp [hj]))
          (by
            intro x hx
            rcases Finset.mem_insert.mp hx with h | h
            · subst h; simpa using hi
            · exact hsub h)
          (by
            rw [← hcover]
            ext x
            simp [Finset.mem_insert, Finset.mem_union])
          hfull

lemma aggRun_append {α ε : Type} (st : AggState α ε)
    (evs1 evs2 : List (Nat × Outcome α ε)) :
    aggRun st (evs1 ++ evs2)
      = match aggRun st evs1 with
        | .ok st' => aggRun st' evs2
        | .error e => .error e := by
  induction evs1 generalizing st with
  | nil => simp [aggRun]
  | cons ev evs ih =>
      simp only [List.cons_append, aggRun]
      cases aggStep st ev with
      | ok st' => exact ih st'
      | error e => rfl

/-! ### Claims C4, C8, C9 -/

/-- C4: the claim describes the intended behaviour, but the code has a
slip.  `AsyncAGIExecutor._send_command_line` installs
`def _on_action_failure(exc): handler.on_exception(exc)` as the AMI
action's failure callback.  This reads the `on_exception` *property* (the
user's bound callback, or `None`) and calls it, instead of calling
`handler.set_exception(exc)`.  Consequences, evaluated here: with no
exception callback bound the delivery raises `TypeError` (calling `None`)
instead of re-raising the AMI exception, and in every case the token's
`_triggered` flag is not set, violating the documented exactly-once
semantics — whereas `set_exception` both marks the token triggered and
delivers (or re-raises) the exception. -/
theorem c4_asyncagi_failure_path :
    (onExceptionCall (α := Nat) (ε := Nat) ⟨false, false, false⟩ 5
        = (⟨false, false, false⟩, .typeError))
    ∧ (setException (α := Nat) (ε := Nat) ⟨false, false, false⟩ 5
        = (⟨false, false, true⟩, .raised 5))
    ∧ (onExceptionCall (α := Nat) (ε := Nat) ⟨false, true, false⟩ 5).1.triggered
        = false
    ∧ (setException (α := Nat) (ε := Nat) ⟨false, true, false⟩ 5).1.triggered
        = true :=
  ⟨rfl, rfl, rfl, rfl⟩

/-- C8, counterexample: for the empty list of completion tokens the claim
fails.  All (zero) children have vacuously succeeded after the empty
completion sequence, yet `Handler.aggregate([])` returns a token that has
not fired (and never will): `set_result` is only ever called from within a
child's `_on_result` callback. -/
theorem c8_counterexample :
    aggRun (aggInit Nat Nat 0) [] = .ok (aggInit Nat Nat 0)
    ∧ (aggInit Nat Nat 0).handler.triggered = false
    ∧ (aggInit Nat Nat 0).handler.fired = [] :=
  ⟨rfl, rfl, rfl⟩

/-- C8, amended: for every *nonempty* finite list of completion tokens and
every order and outcome of their completions, the aggregate token fires
exactly once with the list of the children's results in index order when
all children succeed, fires with the first exception observed when a child
fails, and once it has fired every further child completion is ignored
(no second firing and no state change). -/
theorem c8_aggregate (α ε : Type) (n : Nat) (hn : 0 < n)
    (outcomes : Nat → Outcome α ε) :
    ((∀ i, i < n → (outcomes i).isOk = true) →
      ∀ evs : List Nat, evs.Perm (List.range n) →
        aggRun (aggInit α ε n) (evs.map (fun i => (i, outcomes i)))
          = .ok { handler := ⟨true, [.ok (fullResults n outcomes)]⟩
                  results := fullResults n outcomes
                  pending := ∅ })
    ∧ (∀ (pre post : List Nat) (j : Nat) (e : ε),
        outcomes j = .exc e → j < n →
        (∀ i ∈ pre, i < n) → (∀ i ∈ pre, (outcomes i).isOk = true) →
        (pre ++ j :: post).Nodup →
        ∃ st', aggRun (aggInit α ε n)
            ((pre ++ j :: post).map (fun i => (i, outcomes i))) = .ok st'
          ∧ st'.handler.triggered = true ∧ st'.handler.fired = [.exc e])
    ∧ (∀ (st : AggState α ε) (ev : Nat × Outcome α ε),
        st.handler.triggered = true → aggStep st ev = .ok st) := by
  refine ⟨?_, ?_, fun st ev h => aggStep_ignore st ev h⟩
  · intro hall evs hperm
    rw [aggInit_eq_partialState α ε n outcomes]
    apply aggRun_success n outcomes evs ∅
    · exact hperm.nodup_iff.mpr (List.nodup_range n)
    · intro i hi
      have : i ∈ List.range n := hperm.mem_iff.mp hi
      simpa using this
    · intro i _; simp
    · intro i hi
      exact hall i (by simpa using hperm.mem_iff.mp hi)
    · simp
    · rw [Finset.empty_union]
      ext x
      simp [List.mem_toFinset, hperm.mem_iff]
    · rw [Finset.sdiff_empty]
      intro h
      rw [← Finset.not_nonempty_iff_eq_empty] at h
      exact h (by simp [Finset.nonempty_range_iff]; omega)
  · intro pre post j e hexc hj hlt hok hnd
    have hnd' := List.nodup_append.mp hnd
    have hjpre : j ∉ pre := fun h => (hnd'.2.2 h (by simp))
    have hpre := aggRun_partialState n outcomes pre ∅ hnd'.1 hlt
      (fun i _ => Finset.not_mem_empty i) hok
      (by
        apply Finset.ne_empty_of_mem (a := j)
        simp [Finset.mem_sdiff, Finset.mem_range, hj, hjpre])
    rw [aggInit_eq_partialState α ε n outcomes, List.map_append, aggRun_append, hpre]
    refine ⟨{ partialState α ε n outcomes (∅ ∪ pre.toFinset) with
              handler := ⟨true, [.exc e]⟩ }, ?_, rfl, rfl⟩
    simp only [List.map_cons, aggRun, aggStep, hexc, aggOnException, partialState]
    rw [if_neg (by simp)]
    exact aggRun_ignore _ _ rfl

/-- C8, witness: two successful children completing out of order. -/
theorem c8_aggregate_witness :
    (0 : Nat) < 2
    ∧ aggRun (aggInit Nat Nat 2)
        ([1, 0].map (fun i => (i, (Outcome.ok i : Outcome Nat Nat))))
        = .ok { handler :=
                  ⟨true, [.ok (fullResults 2
                    (fun i => (Outcome.ok i : Outcome Nat Nat)))]⟩
                results := fullResults 2
                  (fun i => (Outcome.ok i : Outcome Nat Nat))
                pending := ∅ } :=
  ⟨by decide,
    (c8_aggregate Nat Nat 2 (by decide)
      (fun i => (Outcome.ok i : Outcome Nat Nat))).1
      (fun i _ => rfl) [1, 0] (by decide)⟩

/-- C9, counterexample: the `Handler` class defines no cancel operation at
all — its public operations are exactly `on_result`, `on_exception`,
`set_result`, `set_exception` and `aggregate` — so the claimed cancel
semantics do not exist in the code. -/
theorem c9_counterexample : "cancel" ∉ handlerOperations := by decide

/-- C9, amended: the completion token type exposes *no* cancel operation
(there is no way to detach a token or discard deliveries); a result or
exception delivered to a not-yet-triggered token always marks it
triggered. -/
theorem c9_no_cancel :
    "cancel" ∉ handlerOperations
    ∧ (∀ (h : PyHandler) (v : Nat), h.triggered = false →
        (setResult (α := Nat) (ε := Nat) h v).1.triggered = true)
    ∧ (∀ (h : PyHandler) (e : Nat), h.triggered = false →
        (setException (α := Nat) (ε := Nat) h e).1.triggered = true) := by
  refine ⟨by decide, ?_, ?_⟩
  · intro h v htr
    simp [setResult, htr]
  · intro h e htr
    simp [setException, htr]

/-- C9, witness: the amended theorem applied to a fresh token. -/
theorem c9_no_cancel_witness :
    "cancel" ∉ handlerOperations
    ∧ (setResult (α := Nat) (ε := Nat) ⟨false, false, false⟩ 3).1.triggered
        = true :=
  ⟨c9_no_cancel.1, c9_no_cancel.2.1 ⟨false, false, false⟩ 3 rfl⟩

/-! ### Lemmas about AGI escaping (claim C3) -/

lemma escapeChars_length_le (l : List Char) : l.length ≤ (escapeChars l).length := by
  induction l with
  | nil => simp [escapeChars]
  | cons c t ih =>
      simp only [escapeChars, List.flatMap_cons] at ih ⊢
      by_cases hc : c = '\\' ∨ c = '"'
      · rw [if_pos hc]
        simp only [List.length_cons, List.length_append]
        omega
      · rw [if_neg hc]
        simpa using ih

lemma escapeChars_of_not_mem (l : List Char) (h1 : '\\' ∉ l) (h2 : '"' ∉ l) :
    escapeChars l = l := by
  induction l with
  | nil => rfl
  | cons c t ih =>
      have hc : ¬(c = '\\' ∨ c = '"') := by
        rintro (h | h) <;> subst h
        · exact h1 (by simp)
        · exact h2 (by simp)
      simp only [escapeChars, List.flatMap_cons, if_neg hc, List.singleton_append,
        List.cons.injEq, true_and]
      have := ih (fun h => h1 (by simp [h])) (fun h => h2 (by simp [h]))
      simpa [escapeChars] using this

lemma mem_of_escapeChars_eq (l : List Char) (h : escapeChars l = l) :
    '\\' ∉ l ∧ '"' ∉ l := by
  induction l with
  | nil => simp
  | cons c t ih =>
      simp only [escapeChars, List.flatMap_cons] at h
      by_cases hc : c = '\\' ∨ c = '"'
      · exfalso
        rw [if_pos hc] at h
        have hle := escapeChars_length_le t
        simp only [escapeChars] at hle
        have hlen := congrArg List.length h
        simp only [List.length_append, List.length_cons] at hlen
        omega
      · rw [if_neg hc] at h
        simp only [List.singleton_append, List.cons.injEq, true_and] at h
        have ht := ih (by simpa [escapeChars] using h)
        push_neg at hc
        refine ⟨?_, ?_⟩
        · intro hmem
          rcases List.mem_cons.mp hmem with h' | h'
          · exact hc.1 h'.symm
          · exact ht.1 h'
        · intro hmem
          rcases List.mem_cons.mp hmem with h' | h'
          · exact hc.2 h'.symm
          · exact ht.2 h'

lemma escapeChars_eq_self_iff (l : List Char) :
    escapeChars l = l ↔ ('\\' ∉ l ∧ '"' ∉ l) :=
  ⟨mem_of_escapeChars_eq l, fun h => escapeChars_of_not_mem l h.1 h.2⟩

lemma escapeArg_ok (l : List Char) (h : ¬('\x00' ∈ l ∨ '\n' ∈ l)) :
    escapeArg l = .ok (claimEscape l) := by
  simp only [escapeArg, if_neg h, claimEscape]
  by_cases hq : l = [] ∨ escapeChars l ≠ l ∨ ' ' ∈ l ∨ '\t' ∈ l
  · rw [if_pos hq]
    rw [if_pos ?side]
    case side =>
      rcases hq with h1 | h2 | h3 | h4
      · exact Or.inl h1
      · have hmem : ¬('\\' ∉ l ∧ '"' ∉ l) :=
          fun hn => h2 ((escapeChars_eq_self_iff l).mpr hn)
        rcases not_and_or.mp hmem with h' | h'
        · exact Or.inr (Or.inr (Or.inr (Or.inl (not_not.mp h'))))
        · exact Or.inr (Or.inr (Or.inr (Or.inr (not_not.mp h'))))
      · exact Or.inr (Or.inl h3)
      · exact Or.inr (Or.inr (Or.inl h4))
  · rw [if_neg hq]
    push_neg at hq
    have heq : escapeChars l = l := hq.2.1
    rw [if_neg ?side2]
    case side2 =>
      have hns := mem_of_escapeChars_eq l heq
      simp [hq.1, hq.2.2.1, hq.2.2.2, hns.1, hns.2]
    rw [heq]

lemma mapM_escape_ok (args : List (List Char))
    (h : ∀ a ∈ args, ¬('\x00' ∈ a ∨ '\n' ∈ a)) :
    args.mapM escapeArg = .ok (args.map claimEscape) := by
  induction args with
  | nil => rfl
  | cons a t ih =>
      rw [List.mapM_cons, escapeArg_ok a (h a (by simp))]
      rw [ih (fun x hx => h x (by simp [hx]))]
      rfl

lemma mapM_escape_err (args : List (List Char))
    (h : ∃ a ∈ args, '\x00' ∈ a ∨ '\n' ∈ a) :
    args.mapM escapeArg = .error () := by
  induction args with
  | nil => simp at h
  | cons a t ih =>
      rw [List.mapM_cons]
      by_cases ha : '\x00' ∈ a ∨ '\n' ∈ a
      · rw [show escapeArg a = .error () from by simp [escapeArg, if_pos ha]]
        rfl
      · have hx : ∃ x ∈ t, '\x00' ∈ x ∨ '\n' ∈ x := by
          rcases h with ⟨x, hx, hbad⟩
          rcases List.mem_cons.mp hx with h' | h'
          · subst h'; exact absurd hbad ha
          · exact ⟨x, h', hbad⟩
        cases he : escapeArg a with
        | error e => cases e; rfl
        | ok v =>
            rw [ih hx]
            rfl

/-! ### Claim C3 -/

/-- C3, counterexample: the claim quotes an argument iff it is empty or
contains *whitespace*, a backslash or a double quote — but the code only
checks for space and tab.  `'\r'` is a whitespace character, yet the
argument `"a\rb"` is serialized unquoted. -/
theorem c3_counterexample :
    ('\r'.isWhitespace = true)
    ∧ escapeArg ['a', '\r', 'b'] = .ok ['a', '\r', 'b']
    ∧ encodeCommand [['a', '\r', 'b']] = .ok (utf8Encode ['a', '\r', 'b', '\n'])
    ∧ ['a', '\r', 'b'].head? ≠ some '"' :=
  ⟨by decide, rfl, rfl, by decide⟩

/-- C3, amended: for every non-empty argument list accepted by
`send_command`, the serialized command line is the space-join of the
escaped arguments followed by `\n`, encoded as UTF-8, where an argument
is wrapped in double quotes iff it is empty or contains a *space, tab*,
backslash or double quote, each backslash and double quote being
preceded by a backslash; an argument containing `\0` or `\n` is rejected
with an error. -/
theorem c3_encode_command (args : List (List Char)) (hne : args ≠ []) :
    ((∀ a ∈ args, ¬('\x00' ∈ a ∨ '\n' ∈ a)) →
      encodeCommand args = .ok (utf8Encode (claimLine args)))
    ∧ ((∃ a ∈ args, '\x00' ∈ a ∨ '\n' ∈ a) →
      encodeCommand args = .error ()) := by
  have hlen : ¬ args.length = 0 := by
    simpa [List.length_eq_zero] using hne
  constructor
  · intro h
    simp only [encodeCommand, if_neg hlen, mapM_escape_ok args h, claimLine]
  · intro h
    simp only [encodeCommand, if_neg hlen, mapM_escape_err args h]

/-- C3, witness: the claim's own example,
`["set", "variable", "some\tspaced data", "bar"]`. -/
theorem c3_encode_command_witness :
    (["set".toList, "variable".toList, "some\tspaced data".toList,
      "bar".toList] ≠ [])
    ∧ encodeCommand
        ["set".toList, "variable".toList, "some\tspaced data".toList,
         "bar".toList]
        = .ok (utf8Encode "set variable \"some\tspaced data\" bar\n".toList) :=
  ⟨by decide, by
    rw [(c3_encode_command
      ["set".toList, "variable".toList, "some\tspaced data".toList,
       "bar".toList] (by decide)).1 (by decide)]
    rfl⟩

/-! ### Claim C6 -/

/-- C6: in the `in-response-follows` state a line ending with the literal
`--END COMMAND--` completes the response — no blank line is required — and
the text preceding the terminator on that line becomes the last payload
element; in particular, after the greeting, the CRLF-terminated lines
`Response: Follows`, `Privilege: Command`, `ActionID: 1234`, `foo`,
`bar--END COMMAND--` complete exactly one `follows` response with payload
`["foo", "bar"]`. -/
theorem c6_follows_terminator :
    (∀ (rtype : List Char) (headers : CaseDict (List Char))
        (payload : List (List Char)) (rawLine t : List Char),
        rstripCRLF rawLine = t ++ responseFollowsEnd → t ≠ [] →
        amiLineReceived (.inResponseFollows rtype headers payload) rawLine
          = some (.idle, some (.resp ⟨rtype, headers, payload ++ [t]⟩)))
    ∧ amiFeedLines .init
        ["Asterisk Call Manager/1.4\r\n".toList,
         "Response: Follows\r\n".toList,
         "Privilege: Command\r\n".toList,
         "ActionID: 1234\r\n".toList,
         "foo\r\n".toList,
         "bar--END COMMAND--\r\n".toList]
        = some (.idle,
            [.greeting "Asterisk Call Manager".toList "1.4".toList,
             .resp ⟨"follows".toList,
               ⟨[("Privilege".toList, "Command".toList),
                 ("ActionID".toList, "1234".toList)]⟩,
               ["foo".toList, "bar".toList]⟩]) := by
  constructor
  · intro rtype headers payload rawLine t heq hne
    simp only [amiLineReceived, heq]
    have hsuf : responseFollowsEnd.isSuffixOf (t ++ responseFollowsEnd) = true := by
      have h : responseFollowsEnd <:+ t ++ responseFollowsEnd :=
        List.suffix_append t responseFollowsEnd
      simp [List.isSuffixOf, h]
    rw [if_pos hsuf]
    have htake : (t ++ responseFollowsEnd).take
        ((t ++ responseFollowsEnd).length - responseFollowsEnd.length) = t := by
      have : (t ++ responseFollowsEnd).length - responseFollowsEnd.length
          = t.length := by
        simp [List.length_append]
      rw [this, List.take_left]
    rw [htake, if_pos hne]
  · decide

/-- C6, witness: the general part applied to the line
`bar--END COMMAND--\r\n` arriving in the follows state. -/
theorem c6_follows_terminator_witness :
    rstripCRLF "bar--END COMMAND--\r\n".toList
        = "bar".toList ++ responseFollowsEnd
    ∧ amiLineReceived
        (.inResponseFollows "follows".toList CaseDict.empty ["foo".toList])
        "bar--END COMMAND--\r\n".toList
      = some (.idle, some (.resp ⟨"follows".toList, CaseDict.empty,
          ["foo".toList, "bar".toList]⟩)) :=
  ⟨by decide,
    c6_follows_terminator.1 "follows".toList CaseDict.empty ["foo".toList]
      "bar--END COMMAND--\r\n".toList "bar".toList (by decide) (by decide)⟩

/-! ### Association-list lemmas -/

lemma alistFind?_set_self {β : Type} (l : List (List Char × β)) (k : List Char)
    (v : β) : alistFind? (alistSet l k v) k = some v := by
  induction l with
  | nil => simp [alistSet, alistFind?]
  | cons kv t ih =>
      rcases kv with ⟨k', v'⟩
      by_cases h : k' = k
      · simp [alistSet, alistFind?, h]
      · simp [alistSet, alistFind?, h, ih]

lemma alistSet_set {β : Type} (l : List (List Char × β)) (k : List Char)
    (v w : β) : alistSet (alistSet l k v) k w = alistSet l k w := by
  induction l with
  | nil => simp [alistSet]
  | cons kv t ih =>
      rcases kv with ⟨k', v'⟩
      by_cases h : k' = k
      · simp [alistSet, h]
      · simp [alistSet, h, ih]

lemma alistSet_keys {β : Type} (l : List (List Char × β)) (k : List Char)
    (v : β) :
    (alistSet l k v).map Prod.fst
      = if k ∈ l.map Prod.fst then l.map Prod.fst
        else l.map Prod.fst ++ [k] := by
  induction l with
  | nil => simp [alistSet]
  | cons kv t ih =>
      rcases kv with ⟨k', v'⟩
      by_cases h : k' = k
      · have hs : alistSet ((k', v') :: t) k v = (k, v) :: t := by
          show (if k' = k then (k, v) :: t else (k', v') :: alistSet t k v)
              = (k, v) :: t
          rw [if_pos h]
        rw [hs]
        subst h
        simp only [List.map_cons]
        rw [if_pos (List.mem_cons_self _ _)]
      · simp only [alistSet, if_neg h, List.map_cons]
        rw [ih]
        by_cases hm : k ∈ t.map Prod.fst
        · simp [hm, Ne.symm h]
        · simp [hm, Ne.symm h]

lemma alistSet_keys_nodup {β : Type} (l : List (List Char × β))
    (k : List Char) (v : β) (h : (l.map Prod.fst).Nodup) :
    ((alistSet l k v).map Prod.fst).Nodup := by
  rw [alistSet_keys]
  by_cases hm : k ∈ l.map Prod.fst
  · simpa [hm] using h
  · simp only [if_neg hm]
    simpa [List.nodup_append, hm] using h

lemma alistFind?_erase_self {β : Type} (l : List (List Char × β))
    (k : List Char) (h : (l.map Prod.fst).Nodup) :
    alistFind? (alistErase l k) k = none := by
  induction l with
  | nil => simp [alistErase, alistFind?]
  | cons kv t ih =>
      rcases kv with ⟨k', v'⟩
      simp only [List.map_cons, List.nodup_cons] at h
      by_cases hk : k' = k
      · subst hk
        simp only [alistErase, if_pos rfl]
        -- `k'` does not occur among the remaining keys
        clear ih
        induction t with
        | nil => simp [alistFind?]
        | cons kv' t' ih' =>
            rcases kv' with ⟨k'', v''⟩
            simp only [List.map_cons, List.mem_cons, List.nodup_cons] at h
            have hk'' : k'' ≠ k' := fun he => h.1 (Or.inl he.symm)
            simp only [alistFind?, if_neg hk'']
            exact ih' ⟨fun hm => h.1 (Or.inr hm), h.2.2⟩
      · simp only [alistErase, if_neg hk, alistFind?, if_neg hk]
        exact ih h.2

/-! ### Claim C10 -/

/-- C10: a parsed response whose headers contain no `ActionID` key at all
makes `AMIProtocol.response_received` raise `KeyError` to the
byte-delivery caller (the model returns the error before any state
mutation, so no token fires and the `_actions`/`_event_lists` maps are
unchanged); the log-and-drop path applies exactly when an `ActionID`
header is present but matches no pending action, and leaves the state
unchanged. -/
theorem c10_missing_action_id (st : MuxState) (resp : AMIResponse) :
    (resp.headers.find? "ActionID".toList = none →
      responseReceived st resp = .error .keyError)
    ∧ (∀ a, resp.headers.find? "ActionID".toList = some a →
        alistFind? st.actions a = none →
        responseReceived st resp = .ok st) := by
  constructor
  · intro h
    simp only [responseReceived, h]
  · intro a ha hnone
    simp only [responseReceived, ha, hnone]

/-- C10, witness: a success response with no headers at all, against the
fresh multiplexer, and the same response with a stale `ActionID`. -/
theorem c10_missing_action_id_witness :
    (AMIResponse.mk "success".toList CaseDict.empty []).headers.find?
        "ActionID".toList = none
    ∧ responseReceived MuxState.fresh
        (AMIResponse.mk "success".toList CaseDict.empty []) = .error .keyError
    ∧ responseReceived MuxState.fresh
        (AMIResponse.mk "success".toList
          ⟨[("ActionID".toList, "7".toList)]⟩ []) = .ok MuxState.fresh :=
  ⟨rfl,
    (c10_missing_action_id MuxState.fresh
      (AMIResponse.mk "success".toList CaseDict.empty [])).1 rfl,
    (c10_missing_action_id MuxState.fresh
      (AMIResponse.mk "success".toList
        ⟨[("ActionID".toList, "7".toList)]⟩ [])).2 "7".toList rfl rfl⟩

/-! ### Decimal representation lemmas (claim C7) -/

lemma digitChar_inj_lt10 {a b : Nat} (ha : a < 10) (hb : b < 10)
    (h : Nat.digitChar a = Nat.digitChar b) : a = b := by
  interval_cases a <;> interval_cases b <;> first | rfl | (exfalso; revert h; decide)

lemma map_digitChar_inj : ∀ (la lb : List Nat), (∀ d ∈ la, d < 10) →
    (∀ d ∈ lb, d < 10) → la.map Nat.digitChar = lb.map Nat.digitChar →
    la = lb := by
  intro la
  induction la with
  | nil =>
      intro lb _ _ h
      cases lb with
      | nil => rfl
      | cons b t => simp at h
  | cons a ta ih =>
      intro lb ha hb h
      cases lb with
      | nil => simp at h
      | cons b tb =>
          simp only [List.map_cons, List.cons.injEq] at h
          have h1 : a = b :=
            digitChar_inj_lt10 (ha a (by simp)) (hb b (by simp)) h.1
          have h2 : ta = tb := ih tb (fun d hd => ha d (by simp [hd]))
            (fun d hd => hb d (by simp [hd])) h.2
          rw [h1, h2]

lemma pyStr_inj : Function.Injective pyStr := by
  intro m n h
  unfold pyStr at h
  by_cases hm : m = 0 <;> by_cases hn : n = 0
  · rw [hm, hn]
  · exfalso
    rw [if_pos hm, if_neg hn] at h
    have h' : (Nat.digits 10 n).map Nat.digitChar = ['0'] := by
      have := congrArg List.reverse h
      simpa using this.symm
    have hd : Nat.digits 10 n = [0] := by
      have hlt : ∀ d ∈ Nat.digits 10 n, d < 10 :=
        fun d hd => Nat.digits_lt_base (by norm_num) hd
      have := map_digitChar_inj (Nat.digits 10 n) [0] hlt (by simp) (by simpa using h')
      simpa using this
    have := Nat.ofDigits_digits 10 n
    rw [hd] at this
    simp [Nat.ofDigits] at this
    exact hn this.symm
  · exfalso
    rw [if_neg hm, if_pos hn] at h
    have h' : (Nat.digits 10 m).map Nat.digitChar = ['0'] := by
      have := congrArg List.reverse h
      simpa using this
    have hd : Nat.digits 10 m = [0] := by
      have hlt : ∀ d ∈ Nat.digits 10 m, d < 10 :=
        fun d hd => Nat.digits_lt_base (by norm_num) hd
      have := map_digitChar_inj (Nat.digits 10 m) [0] hlt (by simp) (by simpa using h')
      simpa using this
    have := Nat.ofDigits_digits 10 m
    rw [hd] at this
    simp [Nat.ofDigits] at this
    exact hm this.symm
  · rw [if_neg hm, if_neg hn] at h
    have h' : (Nat.digits 10 m).map Nat.digitChar
        = (Nat.digits 10 n).map Nat.digitChar := by
      have := congrArg List.reverse h
      simpa using this
    have hd : Nat.digits 10 m = Nat.digits 10 n :=
      map_digitChar_inj _ _
        (fun d hd => Nat.digits_lt_base (by norm_num) hd)
        (fun d hd => Nat.digits_lt_base (by norm_num) hd) h'
    exact Nat.digits_inj_iff.mp hd

lemma sendAuto_ids (n : Nat) : ∀ st : MuxState,
    (sendAuto st n).2 = (List.range n).map (fun k => pyStr (st.actionId + k)) := by
  induction n with
  | zero => intro st; rfl
  | succ n ih =>
      intro st
      show (pyStr st.actionId) :: (sendAuto _ n).2 = _
      rw [ih]
      have hA : (sendAction st none).1.actionId = st.actionId + 1 := rfl
      rw [hA, List.range_succ_eq_map]
      simp only [List.map_cons, List.map_map, Nat.add_zero]
      congr 1
      apply List.map_congr_left
      intro k _
      simp only [Function.comp]
      congr 1
      omega

lemma pyStr_one : pyStr 1 = ['1'] := by
  unfold pyStr
  rw [if_neg (by norm_num)]
  rw [Nat.digits_def' (by norm_num : (1:ℕ) < 10) Nat.one_pos]
  norm_num
  rfl

lemma fireAt_actionId (st : MuxState) (idx : Nat) (o : MuxOutcome)
    (st' : MuxState) (h : fireAt st idx o = .ok st') :
    st'.actionId = st.actionId := by
  simp only [fireAt] at h
  repeat' split at h
  all_goals cases h <;> rfl

/-! ### Claim C7 -/

/-- C7, counterexample: `send_action` stores the token under whatever
`ActionID` the caller supplies, with a plain dict assignment.  After
`send_action('X', {'ActionID': '1'})` followed by `send_action('Y', {})`,
the auto-generated identifier is also `'1'` (the counter starts at 1): the
identifier is reused — and the first token silently evicted from
`_actions` — while that first token has not fired. -/
theorem c7_counterexample :
    (sendAction MuxState.fresh (some ['1'])).2 = ['1']
    ∧ (sendAction (sendAction MuxState.fresh (some ['1'])).1 none).2 = ['1']
    ∧ alistFind? (sendAction MuxState.fresh (some ['1'])).1.actions ['1']
        = some 0
    ∧ alistFind?
        (sendAction (sendAction MuxState.fresh (some ['1'])).1 none).1.actions
        ['1'] = some 1
    ∧ ((sendAction (sendAction MuxState.fresh (some ['1'])).1 none).1.handlers[0]?).map
        MuxHandler.triggered = some false := by
  have h2 : sendAction (sendAction MuxState.fresh (some ['1'])).1 none
      = ({ actionId := 2, actions := [(['1'], 1)], eventLists := [],
           handlers := [MuxHandler.fresh, MuxHandler.fresh] }, ['1']) := by
    have h1 : (sendAction MuxState.fresh (some ['1'])).1
        = { actionId := 1, actions := [(['1'], 0)], eventLists := [],
            handlers := [MuxHandler.fresh] } := rfl
    rw [h1]
    simp only [sendAction, nextActionId, pyStr_one]
    decide
  refine ⟨by decide, ?_, by decide, ?_, ?_⟩
  · rw [h2]
  · rw [h2]
    decide
  · rw [h2]
    decide

/-- C7, amended: for sequences of `send_action` calls that do *not*
supply their own `ActionID` header, the auto-generated identifiers are
pairwise distinct — never reused at all, whether or not any token has
fired — because they are the decimal representations of a strictly
increasing counter; and no response or event processing ever changes
that counter. -/
theorem c7_auto_action_ids :
    (∀ (st : MuxState) (n : Nat), (sendAuto st n).2.Nodup)
    ∧ (∀ (st : MuxState) (resp : AMIResponse) (st' : MuxState),
        responseReceived st resp = .ok st' → st'.actionId = st.actionId)
    ∧ (∀ (st : MuxState) (ev : AMIEvent) (r : MuxState × Option AMIEvent),
        eventReceived st ev = .ok r → r.1.actionId = st.actionId) := by
  refine ⟨?_, ?_, ?_⟩
  · intro st n
    rw [sendAuto_ids n st]
    refine List.Nodup.map_on ?_ (List.nodup_range n)
    intro x _ y _ hxy
    have := pyStr_inj hxy
    omega
  · intro st resp st' h
    simp only [responseReceived, fireAt] at h
    repeat' split at h
    all_goals cases h <;> rfl
  · intro st ev r h
    simp only [eventReceived] at h
    repeat' split at h
    all_goals first
      | (cases h <;> rfl)
      | (rename_i heq
         cases h
         show _ = st.actionId
         rw [fireAt_actionId _ _ _ _ heq])

/-- C7, witness: three auto-generated identifiers are distinct, and a
dropped stale response leaves the counter unchanged. -/
theorem c7_auto_action_ids_witness :
    (sendAuto MuxState.fresh 3).2.Nodup
    ∧ MuxState.fresh.actionId = MuxState.fresh.actionId :=
  ⟨c7_auto_action_ids.1 MuxState.fresh 3,
   c7_auto_action_ids.2.1 MuxState.fresh
     (AMIResponse.mk "success".toList ⟨[("ActionID".toList, "7".toList)]⟩ [])
     MuxState.fresh rfl⟩

/-! ### Claim C2 -/

lemma c2_loop (st : MuxState) (A : List Char) (idx : Nat)
    (hA : A ≠ [])
    (hact : alistFind? st.actions A = some idx) :
    ∀ (evs : List AMIEvent) (el : AMIEventList),
    (∀ ev ∈ evs, ev.headers.find? "ActionID".toList = some A
        ∧ pyLower (ev.headers.getD "EventList".toList []) ≠ "complete".toList) →
    feedEvents { st with eventLists := alistSet st.eventLists A el } evs
      = .ok { st with eventLists :=
                (alistSet st.eventLists A ⟨el.headers, el.events ++ evs⟩) } := by
  intro evs
  induction evs with
  | nil =>
      intro el _
      simp only [feedEvents, List.append_nil]
  | cons ev rest ih =>
      intro el hevs
      obtain ⟨hid, hcompl⟩ := hevs ev (by simp)
      have hstep : eventReceived
          { st with eventLists := alistSet st.eventLists A el } ev
          = .ok ({ st with eventLists :=
                    (alistSet st.eventLists A ⟨el.headers, el.events ++ [ev]⟩) },
                 none) := by
        simp only [eventReceived, hid]
        rw [if_neg hA]
        simp only [hact, alistFind?_set_self]
        rw [if_neg hcompl]
        simp only [alistSet_set]
      simp only [feedEvents, hstep]
      have := ih ⟨el.headers, el.events ++ [ev]⟩
        (fun e he => hevs e (by simp [he]))
      simp only [List.append_assoc, List.cons_append, List.nil_append] at this
      exact this

/-- C2, counterexample to the unrestricted claim: a token registered
under the *empty* `ActionID` `''` (which `send_action` accepts as a
supplied header).  After the `EventList: start` response, `action_id and
self._actions.get(action_id)` in `event_received` short-circuits to the
falsy `''`, which `is not None`, so the first intermediate event runs
`''.events.append(event)` and raises `AttributeError`: the scenario the
claim covers errors out and the token never fires. -/
theorem c2_counterexample :
    alistFind? (⟨2, [([], 0)], [], [MuxHandler.fresh]⟩ : MuxState).actions []
        = some 0
    ∧ eventListScenario
        ⟨2, [([], 0)], [], [MuxHandler.fresh]⟩
        ⟨"success".toList,
          ⟨[("ActionID".toList, []), ("EventList".toList, "start".toList)]⟩,
          []⟩
        [⟨"ListDialplan".toList, ⟨[("ActionID".toList, [])]⟩⟩]
        ⟨"ShowDialPlanComplete".toList,
          ⟨[("EventList".toList, "Complete".toList),
            ("ActionID".toList, [])]⟩⟩
      = .error .attributeError := by
  constructor
  · rfl
  · rfl

/-- C2: a pending action token registered under a non-empty `ActionID` A;
the multiplexer receives a response of type success/follows/goodbye with
`ActionID: A` and `EventList: start`, then `N` events with `ActionID: A`
whose `EventList` header (if any) is not `complete`, then one event with
`ActionID: A` and `EventList: complete`.  The token fires exactly once,
with an `EventList` whose `events` are exactly the `N` intermediate
events (in order) and whose headers are the start response's headers
updated with the completion event's headers; `A` is removed from both the
pending-actions map and the event-lists-in-progress map. -/
theorem c2_event_list_aggregation (st : MuxState) (A : List Char) (idx : Nat)
    (resp : AMIResponse) (evs : List AMIEvent) (evc : AMIEvent)
    (hA : A ≠ [])
    (hact : alistFind? st.actions A = some idx)
    (hh : st.handlers[idx]? = some MuxHandler.fresh)
    (hel : alistFind? st.eventLists A = none)
    (hndA : (st.actions.map Prod.fst).Nodup)
    (hndE : (st.eventLists.map Prod.fst).Nodup)
    (hrt : resp.rtype = "success".toList ∨ resp.rtype = "goodbye".toList
        ∨ resp.rtype = "follows".toList)
    (hrid : resp.headers.find? "ActionID".toList = some A)
    (hrel : pyLower (resp.headers.getD "EventList".toList []) = "start".toList)
    (hevs : ∀ ev ∈ evs, ev.headers.find? "ActionID".toList = some A
        ∧ pyLower (ev.headers.getD "EventList".toList []) ≠ "complete".toList)
    (hcid : evc.headers.find? "ActionID".toList = some A)
    (hcel : pyLower (evc.headers.getD "EventList".toList [])
        = "complete".toList) :
    ∃ stF, eventListScenario st resp evs evc = .ok stF
      ∧ stF.handlers[idx]?
          = some ⟨true, [.evlist ⟨resp.headers.update evc.headers, evs⟩]⟩
      ∧ alistFind? stF.actions A = none
      ∧ alistFind? stF.eventLists A = none := by
  have hne_err : resp.rtype ≠ "error".toList := by
    rcases hrt with h | h | h <;> rw [h] <;> decide
  -- step 1: the start response registers an empty event list
  have h1 : responseReceived st resp
      = .ok { st with eventLists :=
                (alistSet st.eventLists A ⟨resp.headers, []⟩) } := by
    simp only [responseReceived, hrid, hact]
    rw [if_neg hne_err, if_pos hrt, if_pos hrel, hel]
    rfl
  -- step 2: the N intermediate events are appended
  have h2 := c2_loop st A idx hA hact evs ⟨resp.headers, []⟩ hevs
  simp only [List.nil_append] at h2
  -- step 3: the completion event fires the token and cleans up
  have hlt : idx < st.handlers.length := by
    by_contra hge
    rw [List.getElem?_eq_none (Nat.le_of_not_lt hge)] at hh
    cases hh
  have h3 : eventReceived
      { st with eventLists :=
          (alistSet st.eventLists A ⟨resp.headers, evs⟩) } evc
      = .ok ({ st with
               actions := alistErase st.actions A
               eventLists := (alistErase
                 (alistSet st.eventLists A ⟨resp.headers, evs⟩) A)
               handlers := st.handlers.set idx
                 ⟨true, [.evlist ⟨resp.headers.update evc.headers, evs⟩]⟩ },
             none) := by
    simp only [eventReceived, hcid]
    rw [if_neg hA]
    simp only [hact, alistFind?_set_self]
    rw [if_pos hcel]
    simp only [fireAt, hh]
    rfl
  refine ⟨{ st with
            actions := alistErase st.actions A
            eventLists := (alistErase
              (alistSet st.eventLists A ⟨resp.headers, evs⟩) A)
            handlers := st.handlers.set idx
              ⟨true, [.evlist ⟨resp.headers.update evc.headers, evs⟩]⟩ },
          ?_, ?_, ?_, ?_⟩
  · simp only [eventListScenario, h1, h2, h3]
  · rw [List.getElem?_set]
    simp [hlt]
  · exact alistFind?_erase_self st.actions A hndA
  · exact alistFind?_erase_self _ A (alistSet_keys_nodup st.eventLists A _ hndE)

/-- C2, witness: the dialplan event-list scenario from the repository's
test suite, with two intermediate events. -/
theorem c2_event_list_aggregation_witness :
    ∃ stF, eventListScenario
        ⟨2, [("123.567".toList, 0)], [], [MuxHandler.fresh]⟩
        ⟨"success".toList,
          ⟨[("ActionID".toList, "123.567".toList),
            ("EventList".toList, "start".toList)]⟩, []⟩
        [⟨"ListDialplan".toList, ⟨[("ActionID".toList, "123.567".toList)]⟩⟩,
         ⟨"ListDialplan".toList, ⟨[("ActionID".toList, "123.567".toList)]⟩⟩]
        ⟨"ShowDialPlanComplete".toList,
          ⟨[("EventList".toList, "Complete".toList),
            ("ActionID".toList, "123.567".toList)]⟩⟩
      = .ok stF
      ∧ stF.handlers[0]?
          = some ⟨true, [.evlist
              ⟨CaseDict.update
                 ⟨[("ActionID".toList, "123.567".toList),
                   ("EventList".toList, "start".toList)]⟩
                 ⟨[("EventList".toList, "Complete".toList),
                   ("ActionID".toList, "123.567".toList)]⟩,
               [⟨"ListDialplan".toList,
                  ⟨[("ActionID".toList, "123.567".toList)]⟩⟩,
                ⟨"ListDialplan".toList,
                  ⟨[("ActionID".toList, "123.567".toList)]⟩⟩]⟩]⟩
      ∧ alistFind? stF.actions "123.567".toList = none
      ∧ alistFind? stF.eventLists "123.567".toList = none :=
  c2_event_list_aggregation
    ⟨2, [("123.567".toList, 0)], [], [MuxHandler.fresh]⟩
    "123.567".toList 0
    ⟨"success".toList,
      ⟨[("ActionID".toList, "123.567".toList),
        ("EventList".toList, "start".toList)]⟩, []⟩
    [⟨"ListDialplan".toList, ⟨[("ActionID".toList, "123.567".toList)]⟩⟩,
     ⟨"ListDialplan".toList, ⟨[("ActionID".toList, "123.567".toList)]⟩⟩]
    ⟨"ShowDialPlanComplete".toList,
      ⟨[("EventList".toList, "Complete".toList),
        ("ActionID".toList, "123.567".toList)]⟩⟩
    (by decide) (by decide) (by decide) (by decide) (by decide) (by decide)
    (by decide) (by decide) (by decide) (by decide) (by decide) (by decide)

/-! ### Claim C5 -/

lemma onHangup_step (c : CallState) (uid : List Char)
    (nc : List (List Char × CaseDict (List Char)))
    (ui calls : List (List Char × Nat))
    (hui : alistFind? ui uid = some 0)
    (hmem : uid ∈ c.uniqueIds)
    (hcalls : (alistFind? calls c.callId).isSome) :
    onHangup ⟨[c], nc, ui, calls⟩ (hangupHeaders uid)
      = if c.uniqueIds.erase uid = ∅ then
          .ok (⟨[⟨c.callId, c.uniqueIds.erase uid,
                  some (21, "Call Rejected".toList)⟩],
                alistErase nc uid, alistErase ui uid,
                alistErase calls c.callId⟩,
               [(21, "Call Rejected".toList)])
        else
          .ok (⟨[⟨c.callId, c.uniqueIds.erase uid,
                  some (21, "Call Rejected".toList)⟩],
                alistErase nc uid, alistErase ui uid, calls⟩, []) := by
  have hupd : ∀ x : CallState, updateHangupCause x (hangupHeaders uid)
      = some { x with lastHangupCause := some (21, "Call Rejected".toList) } := by
    intro x
    have hc : (hangupHeaders uid).getD "Cause".toList "0".toList
        = "21".toList := rfl
    have ht : (hangupHeaders uid).getD "Cause-txt".toList []
        = "Call Rejected".toList := rfl
    have hi : pyInt? "21".toList = some 21 := rfl
    simp only [updateHangupCause, hc, hi, ht]
    rw [if_pos (Or.inl (by decide))]
  have hfind : (hangupHeaders uid).find? "Uniqueid".toList = some uid := rfl
  simp only [onHangup, hfind, hui, List.getElem?_cons_zero]
  rw [if_pos hmem]
  simp only [hupd]
  by_cases hem : c.uniqueIds.erase uid = ∅
  · rw [if_pos hem, if_pos hem, if_pos hcalls]
    rfl
  · rw [if_neg hem, if_neg hem]
    rfl

/-- C5: for a tracked call whose channel set is exactly `{U1, U2}`, two
`Hangup` events with `Cause: 21` and `Cause-txt: Call Rejected`, one per
channel and in either order, invoke `call_ended` exactly once, only after
the second event, with arguments `(21, "Call Rejected")`; afterwards the
call is gone from the calls map and both unique ids are gone from the
unique-ids map. -/
theorem c5_two_hangups (U1 U2 cid : List Char)
    (prior : Option (Int × List Char)) (hne : U1 ≠ U2) :
    (∃ st1 st2,
      onHangup (twoChannelState U1 U2 cid prior) (hangupHeaders U1)
          = .ok (st1, [])
      ∧ onHangup st1 (hangupHeaders U2)
          = .ok (st2, [(21, "Call Rejected".toList)])
      ∧ alistFind? st2.calls cid = none
      ∧ alistFind? st2.uniqueIds U1 = none
      ∧ alistFind? st2.uniqueIds U2 = none)
    ∧ (∃ st1 st2,
      onHangup (twoChannelState U1 U2 cid prior) (hangupHeaders U2)
          = .ok (st1, [])
      ∧ onHangup st1 (hangupHeaders U1)
          = .ok (st2, [(21, "Call Rejected".toList)])
      ∧ alistFind? st2.calls cid = none
      ∧ alistFind? st2.uniqueIds U1 = none
      ∧ alistFind? st2.uniqueIds U2 = none) := by
  have hCR : ("Call Rejected".toList : List Char) = "Call Rejected".toList := rfl
  have her1 : ({U1, U2} : Finset (List Char)).erase U1 = {U2} :=
    Finset.erase_insert (by simp [hne])
  have her2 : ({U1, U2} : Finset (List Char)).erase U2 = {U1} := by
    rw [Finset.erase_insert_of_ne hne, Finset.erase_singleton]
    rfl
  have hsing : ∀ u : List Char, ({u} : Finset (List Char)).erase u = ∅ :=
    fun u => Finset.erase_singleton u
  constructor
  · -- U1 first, then U2
    refine ⟨⟨[⟨cid, {U2}, some (21, "Call Rejected".toList)⟩], [],
             [(U2, 0)], [(cid, 0)]⟩,
           ⟨[⟨cid, ∅, some (21, "Call Rejected".toList)⟩], [], [], []⟩,
           ?_, ?_, rfl, rfl, rfl⟩
    · have h := onHangup_step ⟨cid, {U1, U2}, prior⟩ U1 []
        [(U1, 0), (U2, 0)] [(cid, 0)]
        (by simp [alistFind?]) (by simp) (by simp [alistFind?])
      simp only [her1] at h
      rw [if_neg (by simp)] at h
      have herase : alistErase [(U1, (0 : Nat)), (U2, 0)] U1 = [(U2, 0)] := by
        simp [alistErase]
      simp only [herase] at h
      exact h
    · have h := onHangup_step ⟨cid, {U2}, some (21, "Call Rejected".toList)⟩
        U2 [] [(U2, 0)] [(cid, 0)]
        (by simp [alistFind?]) (by simp) (by simp [alistFind?])
      simp only [hsing U2, if_true] at h
      have he1 : alistErase [(U2, (0 : Nat))] U2 = [] := by simp [alistErase]
      have he2 : alistErase [(cid, (0 : Nat))] cid = [] := by simp [alistErase]
      simp only [he1, he2] at h
      exact h
  · -- U2 first, then U1
    refine ⟨⟨[⟨cid, {U1}, some (21, "Call Rejected".toList)⟩], [],
             [(U1, 0)], [(cid, 0)]⟩,
           ⟨[⟨cid, ∅, some (21, "Call Rejected".toList)⟩], [], [], []⟩,
           ?_, ?_, rfl, rfl, rfl⟩
    · have h := onHangup_step ⟨cid, {U1, U2}, prior⟩ U2 []
        [(U1, 0), (U2, 0)] [(cid, 0)]
        (by simp [alistFind?, hne]) (by simp) (by simp [alistFind?])
      simp only [her2] at h
      rw [if_neg (by simp)] at h
      have herase : alistErase [(U1, (0 : Nat)), (U2, 0)] U2 = [(U1, 0)] := by
        simp [alistErase, hne]
      simp only [herase] at h
      exact h
    · have h := onHangup_step ⟨cid, {U1}, some (21, "Call Rejected".toList)⟩
        U1 [] [(U1, 0)] [(cid, 0)]
        (by simp [alistFind?]) (by simp) (by simp [alistFind?])
      simp only [hsing U1, if_true] at h
      have he1 : alistErase [(U1, (0 : Nat))] U1 = [] := by simp [alistErase]
      have he2 : alistErase [(cid, (0 : Nat))] cid = [] := by simp [alistErase]
      simp only [he1, he2] at h
      exact h

/-- C5, witness: the two-channel hangup theorem at the concrete channels
`U1 = "100.1"`, `U2 = "100.2"`, call id `"1"`, no prior cause. -/
theorem c5_two_hangups_witness :
    ("100.1".toList : List Char) ≠ "100.2".toList
    ∧ ((∃ st1 st2,
        onHangup (twoChannelState "100.1".toList "100.2".toList "1".toList
            none) (hangupHeaders "100.1".toList) = .ok (st1, [])
        ∧ onHangup st1 (hangupHeaders "100.2".toList)
            = .ok (st2, [(21, "Call Rejected".toList)])
        ∧ alistFind? st2.calls "1".toList = none
        ∧ alistFind? st2.uniqueIds "100.1".toList = none
        ∧ alistFind? st2.uniqueIds "100.2".toList = none)
      ∧ (∃ st1 st2,
        onHangup (twoChannelState "100.1".toList "100.2".toList "1".toList
            none) (hangupHeaders "100.2".toList) = .ok (st1, [])
        ∧ onHangup st1 (hangupHeaders "100.1".toList)
            = .ok (st2, [(21, "Call Rejected".toList)])
        ∧ alistFind? st2.calls "1".toList = none
        ∧ alistFind? st2.uniqueIds "100.1".toList = none
        ∧ alistFind? st2.uniqueIds "100.2".toList = none)) :=
  ⟨by decide,
    c5_two_hangups "100.1".toList "100.2".toList "1".toList none (by decide)⟩

end Obelus
